import Mathlib

/-!
# Smart Word Ladder — formal model and verification

A shallow embedding of the core of the `smart-word-ladder` repository:

* `app/core/word_validator.py` — the lexicon: the quality filter
  `_is_good_english_word`, the memoized membership oracle `is_valid_word`,
  `is_one_letter_change`, `get_possible_words`, `add_word`,
  `get_word_difficulty`;
* `app/nlp/path_finder.py` — `PathFinder._find_path`, a depth-bounded
  breadth-first search over the one-letter-change word graph;
* `app/core/game_engine.py` — `GameEngine.make_move` and
  `GameEngine.get_hint` over the `Game` model of `app/models/game.py`.

Modelling conventions:

* Python strings are `List Char` (`Word`); `str.upper` / `str.lower` are
  per-character ASCII case maps (all gameplay words are ASCII letters);
* Python sets and dicts are lists with membership / `List.lookup`
  semantics; the mutated `_wordnet_cache` of `is_valid_word` is threaded
  as explicit state (`is_valid_word` returns the updated validator);
* external data (the filtered NLTK corpus and the WordNet synset oracle)
  are fields of the `WordValidator` state, since their content is data
  loaded at runtime, not part of the repository;
* the graph-search code only observes the Boolean results of
  `is_valid_word`, which are stable across the memoizing updates, so
  `get_possible_words`, `_find_path`, `make_move` and `get_hint` are
  modelled over an arbitrary membership oracle `valid : Word → Bool`;
* Python `float` arithmetic in `_is_good_english_word` is replaced by
  exact integer comparisons that agree with the source's float
  comparisons on every reachable operand (word lengths 3..8), and
  `get_word_difficulty` is computed over `ℚ`;
* `datetime` values are integer epoch seconds; `timedelta.seconds` is the
  day-remainder `(· % 86400)` exactly as in Python.
-/

/-- Python strings, as lists of characters. -/
abbrev Word := List Char

/-- ASCII upper-casing of one character, as done by `str.upper()` on the
letter characters the game manipulates (other characters are unchanged). -/
def upChar (c : Char) : Char :=
  if c = 'a' then 'A' else if c = 'b' then 'B' else if c = 'c' then 'C'
  else if c = 'd' then 'D' else if c = 'e' then 'E' else if c = 'f' then 'F'
  else if c = 'g' then 'G' else if c = 'h' then 'H' else if c = 'i' then 'I'
  else if c = 'j' then 'J' else if c = 'k' then 'K' else if c = 'l' then 'L'
  else if c = 'm' then 'M' else if c = 'n' then 'N' else if c = 'o' then 'O'
  else if c = 'p' then 'P' else if c = 'q' then 'Q' else if c = 'r' then 'R'
  else if c = 's' then 'S' else if c = 't' then 'T' else if c = 'u' then 'U'
  else if c = 'v' then 'V' else if c = 'w' then 'W' else if c = 'x' then 'X'
  else if c = 'y' then 'Y' else if c = 'z' then 'Z' else c

/-- ASCII lower-casing of one character (`str.lower()` on letters). -/
def lowChar (c : Char) : Char :=
  if c = 'A' then 'a' else if c = 'B' then 'b' else if c = 'C' then 'c'
  else if c = 'D' then 'd' else if c = 'E' then 'e' else if c = 'F' then 'f'
  else if c = 'G' then 'g' else if c = 'H' then 'h' else if c = 'I' then 'i'
  else if c = 'J' then 'j' else if c = 'K' then 'k' else if c = 'L' then 'l'
  else if c = 'M' then 'm' else if c = 'N' then 'n' else if c = 'O' then 'o'
  else if c = 'P' then 'p' else if c = 'Q' then 'q' else if c = 'R' then 'r'
  else if c = 'S' then 's' else if c = 'T' then 't' else if c = 'U' then 'u'
  else if c = 'V' then 'v' else if c = 'W' then 'w' else if c = 'X' then 'x'
  else if c = 'Y' then 'y' else if c = 'Z' then 'z' else c

/-- `word.upper()`. -/
def toUpperW (w : Word) : Word := w.map upChar

/-- `word.lower()`. -/
def toLowerW (w : Word) : Word := w.map lowChar

/-- Convert a Lean string literal to a `Word` (convenience for concrete
inputs). -/
def strW (s : String) : Word := s.data

/-- The alphabet iterated by `get_possible_words`
(`'ABCDEFGHIJKLMNOPQRSTUVWXYZ'`). -/
def alphabet : List Char := (strW "ABCDEFGHIJKLMNOPQRSTUVWXYZ")

/-- The difference count of the `for c1, c2 in zip(word1, word2)` loop of
`WordValidator.is_one_letter_change` (the early `return False` of the
source only short-circuits; the decision is `differences == 1`). -/
def countDiffs : Word → Word → Nat
  | c1 :: r1, c2 :: r2 => (if c1 = c2 then 0 else 1) + countDiffs r1 r2
  | _, _ => 0

/-- `WordValidator.is_one_letter_change` (word_validator.py:454-478):
equal length required, then exactly one differing aligned position of the
upper-cased words. -/
def is_one_letter_change (word1 word2 : Word) : Bool :=
  if word1.length ≠ word2.length then false
  else countDiffs (toUpperW word1) (toUpperW word2) = 1

/-- `WordValidator.get_possible_words` (word_validator.py:480-503),
parametric in the membership oracle `valid` (the Boolean result of
`is_valid_word`): for each position left-to-right, for each alphabet
letter other than the current one, keep the substitution when it is a
valid word. -/
def get_possible_words (valid : Word → Bool) (word0 : Word) : List Word :=
  let word := toUpperW word0
  (List.range word.length).flatMap (fun i =>
    alphabet.filterMap (fun letter =>
      if letter = word.getD i letter then none
      else
        let new_word := word.set i letter
        if valid new_word then some new_word else none))

/-! ## PathFinder (`app/nlp/path_finder.py`) -/

/-- An entry of the BFS queue of `PathFinder._find_path`: the reached word
together with the path that reached it. -/
abbrev Entry := Word × List Word

/-- Result of processing part of one BFS level: either the updated
`(visited, next_queue)` pair, or the returned path once the target has
been found. -/
inductive StepRes where
  | cont (visited : List Word) (nextQueue : List Entry)
  | found (path : List Word)
deriving DecidableEq

/-- The `for next_word in next_words` loop of `PathFinder._find_path`
(path_finder.py:120-136) for one dequeued `(current_word, path)` pair:
skip visited words, mark the rest visited, return `path + [next_word]`
when the target is reached, otherwise append to the next-level queue. -/
def visitNexts (target : Word) (path : List Word) :
    List Word → List Word → List Entry → StepRes
  | [], visited, next_queue => .cont visited next_queue
  | n0 :: rest, visited, next_queue =>
    let next_word := toUpperW n0
    if next_word ∈ visited then visitNexts target path rest visited next_queue
    else
      let visited1 := next_word :: visited
      let new_path := path ++ [next_word]
      if next_word = target then .found new_path
      else visitNexts target path rest visited1 (next_queue ++ [(next_word, new_path)])

/-- The `while queue` loop of `PathFinder._find_path`
(path_finder.py:114-136): process every node of the current level. -/
def processQueue (valid : Word → Bool) (target : Word) :
    List Entry → List Word → List Entry → StepRes
  | [], visited, next_queue => .cont visited next_queue
  | (current_word, path) :: qrest, visited, next_queue =>
    match visitNexts target path (get_possible_words valid current_word) visited next_queue with
    | .found p => .found p
    | .cont v1 nq1 => processQueue valid target qrest v1 nq1

/-- The `while queue and depth < self.max_search_depth` loop of
`PathFinder._find_path` (path_finder.py:110-139); the fuel argument is
`max_search_depth - depth`. -/
def bfsLoop (valid : Word → Bool) (target : Word) :
    Nat → List Entry → List Word → Option (List Word)
  | 0, _, _ => none
  | fuel + 1, queue, visited =>
    if queue = [] then none
    else
      match processQueue valid target queue visited [] with
      | .found p => some p
      | .cont v1 nq1 => bfsLoop valid target fuel nq1 v1

/-- `PathFinder.max_search_depth` (path_finder.py:24). -/
def max_search_depth : Nat := 15

/-- `PathFinder._find_path` (path_finder.py:76-142), parametric in the
membership oracle. The writes to `self.path_cache` do not affect the
returned value and are omitted. -/
def find_path (valid : Word → Bool) (start_word0 target_word0 : Word) :
    Option (List Word) :=
  let start_word := toUpperW start_word0
  let target_word := toUpperW target_word0
  if start_word = target_word then some [start_word]
  else if !(valid start_word) then none
  else if !(valid target_word) then none
  else bfsLoop valid target_word max_search_depth [(start_word, [start_word])] [start_word]

/-- The edge relation of the word graph induced by a membership oracle:
`b` is one of the valid one-letter substitutions generated from `a`. -/
def Adj (valid : Word → Bool) (a b : Word) : Prop :=
  b ∈ get_possible_words valid a

instance (valid : Word → Bool) (a b : Word) : Decidable (Adj valid a b) :=
  inferInstanceAs (Decidable (b ∈ get_possible_words valid a))

/-- A path of the word graph from `a` to `b`: nonempty, starts at `a`,
ends at `b`, consecutive words adjacent. -/
def LadderFromTo (valid : Word → Bool) (a b : Word) (q : List Word) : Prop :=
  q.head? = some a ∧ q.getLast? = some b ∧ q.Chain' (Adj valid)

instance instDecChainAdj (valid : Word → Bool) :
    (l : List Word) → Decidable (List.Chain' (Adj valid) l)
  | [] => .isTrue List.chain'_nil
  | [_] => .isTrue (List.chain'_singleton _)
  | a :: b :: l =>
    have : Decidable (List.Chain' (Adj valid) (b :: l)) :=
      instDecChainAdj valid (b :: l)
    decidable_of_iff (Adj valid a b ∧ List.Chain' (Adj valid) (b :: l))
      List.chain'_cons.symm

instance (valid : Word → Bool) (a b : Word) (q : List Word) :
    Decidable (LadderFromTo valid a b q) :=
  inferInstanceAs
    (Decidable (q.head? = some a ∧ q.getLast? = some b ∧ q.Chain' (Adj valid)))

/-- Reachability in exactly `n` steps of the word graph. -/
inductive ReachN (valid : Word → Bool) : Word → Word → Nat → Prop
  | refl (a : Word) : ReachN valid a a 0
  | step {a b c : Word} {n : Nat} :
      ReachN valid a b n → Adj valid b c → ReachN valid a c (n + 1)

/-- Well-formedness of one BFS queue entry at a given level: its path is a
simple graph path from the source to the entry's word, of the level's
length, all of whose words have been visited. -/
def EntryOK (valid : Word → Bool) (s : Word) (len : Nat)
    (visited : List Word) (e : Entry) : Prop :=
  e.2.Chain' (Adj valid) ∧ e.2.head? = some s ∧ e.2.getLast? = some e.1 ∧
    e.2.length = len ∧ e.2.Nodup ∧ ∀ x ∈ e.2, x ∈ visited

/-- The BFS loop invariant before processing level `k`:
entries are well-formed level-`k` paths; every word within distance `k` of
the source has been visited; every visited word is on the frontier or was
reached in fewer than `k` steps; the target has not been visited. -/
def BfsInv (valid : Word → Bool) (s t : Word) (k : Nat)
    (queue : List Entry) (visited : List Word) : Prop :=
  (∀ e ∈ queue, EntryOK valid s (k + 1) visited e) ∧
  (∀ v n, n ≤ k → ReachN valid s v n → v ∈ visited) ∧
  (∀ v ∈ visited, (∃ p, (v, p) ∈ queue) ∨ ∃ n, n + 1 ≤ k ∧ ReachN valid s v n) ∧
  t ∉ visited

/-! ## WordValidator state (`app/core/word_validator.py`) -/

/-- The fixed exclusion set `self._excluded_words`
(word_validator.py:49-67). -/
def excluded_words : List Word :=
  [strW "YURTA", strW "YURT", strW "MASAI", strW "MAASAI", strW "HINDI",
   strW "URDU", strW "BANTU", strW "ZULU", strW "SWAZI", strW "TAMIL",
   strW "TELUGU", strW "SCOTS", strW "WELSH", strW "GAELIC",
   strW "BENZO", strW "NITRO", strW "HYDRO", strW "THIOL", strW "HEXYL",
   strW "BUTYL", strW "ETHYL", strW "PHENYL", strW "VINYL", strW "OXIME",
   strW "AZIDE", strW "OXIDE", strW "ESTER",
   strW "RADAR", strW "SONAR", strW "LASER", strW "SCUBA", strW "AWASH",
   strW "SWATH",
   strW "QUAFF", strW "QUASH", strW "QUALM", strW "QUARK", strW "QUASI",
   strW "QUASAR", strW "FJORD", strW "SHARD", strW "WHARF", strW "SCARF",
   strW "DWARF",
   strW "GYOZA", strW "PIZZA", strW "FUZZY", strW "JAZZY", strW "DIZZY",
   strW "FIZZY"]

/-- `unusual_letters = {'Q', 'X', 'Z', 'J'}` (word_validator.py:205). -/
def unusual_letters : List Char := ['Q', 'X', 'Z', 'J']

/-- `vowels = {'A', 'E', 'I', 'O', 'U'}` (word_validator.py:211). -/
def vowels_upper : List Char := ['A', 'E', 'I', 'O', 'U']

/-- `WordValidator._is_good_english_word` (word_validator.py:177-224).
The float comparisons of the source are replaced by exact integer
comparisons that agree with them on all reachable operands:
`len(set(word)) < len(word) * 0.6` with integer `len(set(word))` and
`3 ≤ len(word) ≤ 8` is `5 * len(set(word)) < 3 * len(word)`, and the
consonant/vowel ratio bounds `ratio > 4` and `ratio < 0.25` are
`consonants > 4 * vowels` and `4 * consonants < vowels`. -/
def is_good_english_word (word0 : Word) : Bool :=
  let word := toUpperW word0
  if word ∈ excluded_words then false
  else if ¬ (word ≠ [] ∧ ∀ c ∈ word, 'A' ≤ c ∧ c ≤ 'Z') then false
  else if word.length < 3 ∨ word.length > 8 then false
  else if 5 * word.eraseDups.length < 3 * word.length then false
  else
    let unusual_count := word.countP (fun c => decide (c ∈ unusual_letters))
    if unusual_count > 1 then false
    else
      let vowel_count := word.countP (fun c => decide (c ∈ vowels_upper))
      if vowel_count = 0 ∧ word.length > 2 then false
      else
        let consonant_count := word.length - vowel_count
        if 0 < vowel_count ∧
            (consonant_count > 4 * vowel_count ∨ 4 * consonant_count < vowel_count)
          then false
        else true

/-- The mutable state of a `WordValidator` instance.  `custom_words` and
`_wordnet_cache` evolve at runtime; `nltk_words_cache` (the filtered NLTK
corpus, possibly empty when the corpus failed to load) and the WordNet
synset oracle are external data fixed at startup. -/
structure WordValidator where
  min_word_length : Nat
  max_word_length : Nat
  custom_words : List Word
  wordnet_cache : List (Word × Bool)
  nltk_words_cache : List Word
  wordnet_synsets : Word → Bool

/-- `str.strip()`: drop leading and trailing whitespace. -/
def stripW (w : Word) : Word :=
  ((w.dropWhile Char.isWhitespace).reverse.dropWhile Char.isWhitespace).reverse

/-- `WordValidator.is_valid_word` (word_validator.py:400-452).  Returns
the Boolean decision together with the updated validator (the memo cache
`self._wordnet_cache` is mutated).  `if not word` is the empty string
test; the `^[a-zA-Z]+$` regular expression is the per-character letter
test; `if self._nltk_words_cache and ...` tests the set for emptiness. -/
def is_valid_word (v : WordValidator) (word0 : Word) : Bool × WordValidator :=
  if word0 = [] then (false, v)
  else
    let word := stripW word0
    if word.length < v.min_word_length ∨ word.length > v.max_word_length then (false, v)
    else if ¬ (word ≠ [] ∧ ∀ c ∈ word, ('A' ≤ c ∧ c ≤ 'Z') ∨ ('a' ≤ c ∧ c ≤ 'z'))
      then (false, v)
    else
      let word_upper := toUpperW word
      let word_lower := toLowerW word
      if word_upper ∈ excluded_words then (false, v)
      else
        match v.wordnet_cache.lookup word_upper with
        | some b => (b, v)
        | none =>
          if word_upper ∈ v.custom_words ∨ word_lower ∈ v.custom_words then
            (true, { v with wordnet_cache := (word_upper, true) :: v.wordnet_cache })
          else if v.nltk_words_cache ≠ [] ∧ word_upper ∈ v.nltk_words_cache then
            (true, { v with wordnet_cache := (word_upper, true) :: v.wordnet_cache })
          else if v.wordnet_synsets word_lower ∧ is_good_english_word word_upper then
            (true, { v with wordnet_cache := (word_upper, true) :: v.wordnet_cache })
          else (false, { v with wordnet_cache := (word_upper, false) :: v.wordnet_cache })

/-- `WordValidator.add_word` (word_validator.py:593-601): admit the word
into the custom dictionary (both cases) when it passes the quality
filter. -/
def add_word (v : WordValidator) (word : Word) : WordValidator :=
  if is_good_english_word (toUpperW word) then
    { v with custom_words := toLowerW word :: toUpperW word :: v.custom_words }
  else v

/-- `'aeiou'` (word_validator.py:619). -/
def vowels_lower : List Char := ['a', 'e', 'i', 'o', 'u']

/-- `WordValidator.get_word_difficulty` (word_validator.py:603-632), with
Python float arithmetic carried out exactly over `ℚ`. -/
def get_word_difficulty (v : WordValidator) (word0 : Word) : ℚ :=
  let word := toLowerW word0
  let length_factor : ℚ :=
    min 1 (((word.length : ℚ) - (v.min_word_length : ℚ)) /
      ((v.max_word_length : ℚ) - (v.min_word_length : ℚ)))
  let vowels := word.countP (fun c => decide (c ∈ vowels_lower))
  let consonants := word.length - vowels
  let ratio : ℚ := if consonants = 0 then 1 else (vowels : ℚ) / (consonants : ℚ)
  let balance_factor : ℚ := |1/2 - ratio| * 2
  3/5 * length_factor + 2/5 * balance_factor

/-- The length-normalized factor of the difficulty score, stated from the
spec's words ("0.6 length-normalized") for the default length bounds 3
and 8. -/
def spec_length_factor (word0 : Word) : ℚ :=
  min 1 ((((toLowerW word0).length : ℚ) - 3) / 5)

/-- The vowel/consonant balance factor of the difficulty score, stated
from the spec's words ("0.4 vowel/consonant balance"). -/
def spec_balance_factor (word0 : Word) : ℚ :=
  let word := toLowerW word0
  let vowels := word.countP (fun c => decide (c ∈ vowels_lower))
  let consonants := word.length - vowels
  let ratio : ℚ := if consonants = 0 then 1 else (vowels : ℚ) / (consonants : ℚ)
  |1/2 - ratio| * 2

/-! ## Game model (`app/models/game.py`) and engine
(`app/core/game_engine.py`) -/

/-- `GameStatus` (game.py:13-18), a string-valued enum; note the extra
`ACTIVE` member. -/
inductive GameStatus where
  | IN_PROGRESS | COMPLETED | ABANDONED | ACTIVE
deriving DecidableEq

/-- `GameStatus.<member>.value`. -/
def GameStatus.value : GameStatus → String
  | .IN_PROGRESS => "in_progress"
  | .COMPLETED => "completed"
  | .ABANDONED => "abandoned"
  | .ACTIVE => "active"

/-- `GameMode` (game.py:21-24). -/
inductive GameMode where
  | CLASSIC | TIMED
deriving DecidableEq

/-- `DifficultyLevel` (game.py:27-31). -/
inductive DifficultyLevel where
  | EASY | MEDIUM | HARD
deriving DecidableEq

/-- The `Game` pydantic model (game.py:34-64).  Fields with pydantic
defaults carry the same defaults here (`status = "active"`); `created_at`
is epoch seconds (its pydantic default, `datetime.now()` evaluated at
class-definition time, has no meaningful counterpart and is left
explicit). -/
structure Game where
  id : String
  start_word : Word
  target_word : Word
  current_word : Word
  moves : List Word := []
  status : String := "active"
  difficulty : DifficultyLevel
  game_mode : GameMode
  player_id : Option String := none
  created_at : Int
  time_elapsed : Nat := 0
deriving DecidableEq

/-- `HintType` (hint.py:11-16). -/
inductive HintType where
  | GENERAL | SEMANTIC | POSITION | LETTER
deriving DecidableEq

/-- The `Hint` model (hint.py:19-32). -/
structure Hint where
  hint_type : HintType
  hint_text : String
  position : Option Nat := none
  suggested_letter : Option Char := none
deriving DecidableEq

/-- The `MoveResult` model (move.py:10-23). -/
structure MoveResult where
  is_target : Bool
  moves_count : Nat
  path : List Word
  message : String
deriving DecidableEq

/-- The distinct `ValueError` rejections raised by `GameEngine.make_move`
(game_engine.py:131-158), named by their messages. -/
inductive MoveError where
  /-- "Game is already completed" -/
  | gameTerminal
  /-- "Time limit exceeded" -/
  | timeExceeded
  /-- "Invalid word: ..." -/
  | invalidWord
  /-- "Word must differ by exactly one letter" -/
  | notOneLetterChange
  /-- "Word already used in this game" -/
  | wordAlreadyUsed
deriving DecidableEq

/-- `timedelta.seconds` of a `timedelta` of `d` whole seconds: Python
normalizes a timedelta to days plus a nonnegative remainder, so the
`.seconds` attribute is `d mod 86400` (the day component is discarded). -/
def timedeltaSeconds (d : Int) : Nat := (d % 86400).toNat

/-- The straight-line remainder of `GameEngine.make_move` after the
terminal-status and time-limit checks (game_engine.py:145-186): word
validation, one-letter-change and reuse checks, then the state update,
target test, message construction and `MoveResult` snapshot.  `g1` is the
game state as left by the time-limit block.  `if remaining_path:` is the
`Option` match (a returned path is never the empty list). -/
def make_move_rest (valid : Word → Bool) (now : Int) (g1 : Game) (word : Word) :
    Except (MoveError × Game) (MoveResult × Game) :=
  if !(valid word) then .error (.invalidWord, g1)
  else if !(is_one_letter_change g1.current_word word) then
    .error (.notOneLetterChange, g1)
  else if word ∈ g1.moves ∨ word = g1.start_word then
    .error (.wordAlreadyUsed, g1)
  else
    let g2 := { g1 with moves := g1.moves ++ [word], current_word := word }
    let is_target := word = g2.target_word
    let g3 := if is_target then { g2 with status := GameStatus.COMPLETED.value } else g2
    let message :=
      if is_target then
        "Congratulations! You\'ve reached the target word in " ++
          toString g2.moves.length ++ " moves."
      else
        match find_path valid word g2.target_word with
        | some remaining_path =>
          "Good move! Approximately " ++ toString (remaining_path.length - 1) ++
            " moves remaining to reach the target."
        | none => "Valid move, but this might not be the optimal path. Keep going!"
    let g4 :=
      if g3.game_mode = GameMode.TIMED then
        { g3 with time_elapsed := timedeltaSeconds (now - g3.created_at) }
      else g3
    .ok ({ is_target := is_target, moves_count := g4.moves.length,
           path := g4.moves, message := message }, g4)

/-- `GameEngine.make_move` (game_engine.py:118-186), parametric in the
membership oracle and in the wall clock `now` (epoch seconds read by
`datetime.now()`).  Python mutates `game` in place and raises on
rejection; here both the rejection and the success carry the resulting
game state.  The code after the time-limit block is `make_move_rest`,
entered with the game state the block left behind. -/
def make_move (valid : Word → Bool) (now : Int) (g : Game) (word0 : Word) :
    Except (MoveError × Game) (MoveResult × Game) :=
  let word := toUpperW word0
  if g.status ≠ GameStatus.IN_PROGRESS.value then
    .error (.gameTerminal, g)
  else if g.game_mode = GameMode.TIMED then
    let time_elapsed := timedeltaSeconds (now - g.created_at)
    if time_elapsed > 300 then
      .error (.timeExceeded, { g with status := GameStatus.ABANDONED.value })
    else make_move_rest valid now { g with time_elapsed := time_elapsed } word
  else make_move_rest valid now g word

/-- The position-finding loop of `GameEngine.get_hint` at `hint_level = 2`
(game_engine.py:236-240): first index at which the two words differ. -/
def firstDiffPos : Word → Word → Nat → Option Nat
  | a :: as_, b :: bs, i => if a ≠ b then some i else firstDiffPos as_ bs (i + 1)
  | _, _, _ => none

/-- The position-and-letter loop of `GameEngine.get_hint` at
`hint_level = 3` (game_engine.py:256-262): first differing index together
with the replacement letter of the second word. -/
def firstDiffPair : Word → Word → Nat → Option (Nat × Char)
  | a :: as_, b :: bs, i => if a ≠ b then some (i, b) else firstDiffPair as_ bs (i + 1)
  | _, _, _ => none

/-- `GameEngine.get_hint` (game_engine.py:188-275), parametric in the
membership oracle.  `if not path or len(path) < 2` is the `Option` match
plus the length test (a returned path is never the empty list). -/
def get_hint (valid : Word → Bool) (g : Game) (hint_level : Nat) : Hint :=
  if g.status ≠ GameStatus.IN_PROGRESS.value then
    { hint_type := .GENERAL, hint_text := "Game is already completed!" }
  else
    let fallback : Hint :=
      let possible_words := get_possible_words valid g.current_word
      if possible_words ≠ [] then
        { hint_type := .GENERAL,
          hint_text := "You can change one letter to make: " ++
            String.intercalate ", " ((possible_words.take 3).map String.mk) ++
            "... Keep exploring!" }
      else
        { hint_type := .GENERAL,
          hint_text := "Keep trying! Look for valid words by changing one letter." }
    match find_path valid (toUpperW g.current_word) (toUpperW g.target_word) with
    | none => fallback
    | some path =>
      if path.length < 2 then fallback
      else
        let next_word := toUpperW (path.getD 1 [])
        if hint_level = 1 then
          { hint_type := .SEMANTIC,
            hint_text := "You\'re approximately " ++ toString (path.length - 1) ++
              " moves away from \'" ++ String.mk g.target_word ++
              "\'. Think of words related to your target!" }
        else if hint_level = 2 then
          match firstDiffPos g.current_word next_word 0 with
          | some position =>
            { hint_type := .POSITION,
              hint_text := "Try changing the letter at position " ++
                toString (position + 1) ++ " (the \'" ++
                String.mk [g.current_word.getD position ' '] ++ "\').",
              position := some position }
          | none =>
            { hint_type := .GENERAL,
              hint_text := "Something went wrong with the hint. Keep trying!" }
        else
          match firstDiffPair g.current_word next_word 0 with
          | some (position, suggested_letter) =>
            { hint_type := .LETTER,
              hint_text := "Change the \'" ++
                String.mk [g.current_word.getD position ' '] ++ "\' at position " ++
                toString (position + 1) ++ " to \'" ++ String.mk [suggested_letter] ++
                "\' to make \'" ++ String.mk next_word ++ "\'.",
              position := some position,
              suggested_letter := some suggested_letter }
          | none =>
            { hint_type := .GENERAL,
              hint_text := "You\'re very close! Keep trying with small changes." }

/-! ## Concrete instances used by witnesses and counterexamples -/

/-- A small concrete lexicon containing the COLD → WARM ladder (all its
words are in the repository's curated dictionary). -/
def lexCW : List Word :=
  [strW "COLD", strW "CORD", strW "WORD", strW "WORM", strW "WARM"]

/-- Membership oracle of `lexCW`. -/
def validCW : Word → Bool := fun w => decide (w ∈ lexCW)

/-- A two-word lexicon. -/
def lexCC : List Word := [strW "COLD", strW "CORD"]

/-- Membership oracle of `lexCC`. -/
def validCC : Word → Bool := fun w => decide (w ∈ lexCC)

/-- The everywhere-false membership oracle (no valid words). -/
def validNone : Word → Bool := fun _ => false

/-- A validator state with the default length bounds, a small
representative custom dictionary, an empty NLTK corpus (the documented
fallback when the corpus fails to load), an empty memo cache and no
WordNet synsets. -/
def vSample : WordValidator :=
  { min_word_length := 3, max_word_length := 8,
    custom_words :=
      [strW "cold", strW "COLD", strW "warm", strW "WARM", strW "gold", strW "GOLD"],
    wordnet_cache := [], nltk_words_cache := [], wordnet_synsets := fun _ => false }

/-- The validator state reached from `vSample` after one (negative)
membership query for ZORK: the memo cache now holds `ZORK ↦ False`. -/
def vZork : WordValidator := (is_valid_word vSample (strW "ZORK")).2

/-- A validator state with the default length bounds and nothing loaded
(only `min_word_length`/`max_word_length` matter for
`get_word_difficulty`). -/
def vDefault : WordValidator :=
  { min_word_length := 3, max_word_length := 8, custom_words := [],
    wordnet_cache := [], nltk_words_cache := [], wordnet_synsets := fun _ => false }

/-- A finished game (for exercising the terminal-game rejection). -/
def gameDone : Game :=
  { id := "g-done", start_word := strW "COLD", target_word := strW "WARM",
    current_word := strW "WARM", moves := [strW "CORD", strW "WORD", strW "WORM", strW "WARM"],
    status := GameStatus.COMPLETED.value, difficulty := .MEDIUM,
    game_mode := .CLASSIC, created_at := 0 }

/-- A timed in-progress game created at epoch second 0. -/
def gameTimed : Game :=
  { id := "g-timed", start_word := strW "COLD", target_word := strW "WARM",
    current_word := strW "COLD", moves := [], status := GameStatus.IN_PROGRESS.value,
    difficulty := .MEDIUM, game_mode := .TIMED, created_at := 0 }

/-- A classic in-progress game one move away from its target. -/
def gameNear : Game :=
  { id := "g-near", start_word := strW "COLD", target_word := strW "CORD",
    current_word := strW "COLD", moves := [], status := GameStatus.IN_PROGRESS.value,
    difficulty := .MEDIUM, game_mode := .CLASSIC, created_at := 0 }

/-- A game built with the model's field defaults (`moves`, `status`,
`player_id`, `time_elapsed` defaulted as in the pydantic model). -/
def gameDefault : Game :=
  { id := "g-default", start_word := strW "COLD", target_word := strW "WARM",
    current_word := strW "COLD", difficulty := .MEDIUM, game_mode := .CLASSIC,
    created_at := 0 }

/-- The lower-case alphabet (proof helper for the case maps). -/
def lowercase_alphabet : List Char := strW "abcdefghijklmnopqrstuvwxyz"

/-! ## Theorems -/

theorem upChar_eq_self_of_not_lower {c : Char}
    (h : ∀ d ∈ lowercase_alphabet, c ≠ d) : upChar c = c := by
  unfold upChar
  rw [if_neg (h 'a' (by decide)), if_neg (h 'b' (by decide)),
    if_neg (h 'c' (by decide)), if_neg (h 'd' (by decide)),
    if_neg (h 'e' (by decide)), if_neg (h 'f' (by decide)),
    if_neg (h 'g' (by decide)), if_neg (h 'h' (by decide)),
    if_neg (h 'i' (by decide)), if_neg (h 'j' (by decide)),
    if_neg (h 'k' (by decide)), if_neg (h 'l' (by decide)),
    if_neg (h 'm' (by decide)), if_neg (h 'n' (by decide)),
    if_neg (h 'o' (by decide)), if_neg (h 'p' (by decide)),
    if_neg (h 'q' (by decide)), if_neg (h 'r' (by decide)),
    if_neg (h 's' (by decide)), if_neg (h 't' (by decide)),
    if_neg (h 'u' (by decide)), if_neg (h 'v' (by decide)),
    if_neg (h 'w' (by decide)), if_neg (h 'x' (by decide)),
    if_neg (h 'y' (by decide)), if_neg (h 'z' (by decide))]

theorem upChar_mem_or_self (c : Char) : upChar c ∈ alphabet ∨ upChar c = c := by
  by_cases h : c ∈ lowercase_alphabet
  · fin_cases h <;> decide
  · right
    exact upChar_eq_self_of_not_lower fun d hd hcd => h (hcd ▸ hd)

theorem upChar_fixed_of_mem : ∀ d ∈ alphabet, upChar d = d := by decide

theorem upChar_idem (c : Char) : upChar (upChar c) = upChar c := by
  rcases upChar_mem_or_self c with h | h
  · exact upChar_fixed_of_mem _ h
  · rw [h]; exact h

theorem toUpperW_idem (w : Word) : toUpperW (toUpperW w) = toUpperW w := by
  induction w with
  | nil => rfl
  | cons c cs ih =>
    simp only [toUpperW, List.map_cons] at *
    exact List.cons_eq_cons.mpr ⟨upChar_idem c, ih⟩

theorem toUpperW_length (w : Word) : (toUpperW w).length = w.length := by
  simp [toUpperW]

theorem toUpperW_set_fixed {u : Word} {c : Char} (h1 : toUpperW u = u)
    (h2 : upChar c = c) (i : Nat) : toUpperW (u.set i c) = u.set i c := by
  simp only [toUpperW] at *
  rw [List.map_set, h1, h2]

theorem mem_get_possible_words {valid : Word → Bool} {w n : Word} :
    n ∈ get_possible_words valid w ↔
      ∃ i, ∃ _ : i < (toUpperW w).length, ∃ c, c ∈ alphabet ∧
        c ≠ (toUpperW w).getD i c ∧ valid ((toUpperW w).set i c) = true ∧
        n = (toUpperW w).set i c := by
  unfold get_possible_words
  simp only [List.mem_flatMap, List.mem_range, List.mem_filterMap]
  constructor
  · rintro ⟨i, hi, c, hc, hf⟩
    split_ifs at hf with h1 h2
    exact ⟨i, hi, c, hc, h1, h2, (Option.some_inj.mp hf).symm⟩
  · rintro ⟨i, hi, c, hc, hne, hv, rfl⟩
    exact ⟨i, hi, c, hc, by rw [if_neg hne, if_pos hv]⟩

theorem gpw_fixed {valid : Word → Bool} {w n : Word}
    (h : n ∈ get_possible_words valid w) : toUpperW n = n := by
  rcases mem_get_possible_words.mp h with ⟨i, hi, c, hc, _, _, rfl⟩
  exact toUpperW_set_fixed (toUpperW_idem w) (upChar_fixed_of_mem c hc) i

theorem gpw_valid {valid : Word → Bool} {w n : Word}
    (h : n ∈ get_possible_words valid w) : valid n = true := by
  rcases mem_get_possible_words.mp h with ⟨i, hi, c, hc, _, hv, rfl⟩
  exact hv

theorem gpw_length {valid : Word → Bool} {w n : Word}
    (h : n ∈ get_possible_words valid w) : n.length = w.length := by
  rcases mem_get_possible_words.mp h with ⟨i, hi, c, hc, _, _, rfl⟩
  simp [toUpperW]

theorem countDiffs_self (l : Word) : countDiffs l l = 0 := by
  induction l with
  | nil => rfl
  | cons a t ih => simp [countDiffs, ih]

theorem countDiffs_set (l : Word) (i : Nat) (c : Char) (hi : i < l.length)
    (hne : c ≠ l.getD i c) : countDiffs l (l.set i c) = 1 := by
  induction l generalizing i with
  | nil => simp at hi
  | cons a t ih =>
    cases i with
    | zero =>
      simp only [List.getD_cons_zero] at hne
      simp [countDiffs, List.set_cons_zero, Ne.symm hne, countDiffs_self]
    | succ j =>
      simp only [List.getD_cons_succ] at hne
      simp only [List.length_cons, Nat.succ_lt_succ_iff] at hi
      simp [countDiffs, List.set_cons_succ, ih j hi hne]

/-- C5 core -/
theorem gpw_one_letter {valid : Word → Bool} {w n : Word}
    (h : n ∈ get_possible_words valid w) :
    n.length = w.length ∧ is_one_letter_change w n = true := by
  have hlen := gpw_length h
  refine ⟨hlen, ?_⟩
  rcases mem_get_possible_words.mp h with ⟨i, hi, c, hc, hne, _, rfl⟩
  have hfix : toUpperW ((toUpperW w).set i c) = (toUpperW w).set i c :=
    toUpperW_set_fixed (toUpperW_idem w) (upChar_fixed_of_mem c hc) i
  unfold is_one_letter_change
  rw [if_neg (by simp [hlen]), hfix]
  exact decide_eq_true (countDiffs_set _ i c hi hne)

/-- C5: for every word `w` and every word `n` in `get_possible_words(w)`,
`n` has the same length as `w` and `is_one_letter_change(w, n)` is
true. -/
theorem c5_get_possible_words_sound (valid : Word → Bool) (w n : Word)
    (h : n ∈ get_possible_words valid w) :
    n.length = w.length ∧ is_one_letter_change w n = true :=
  gpw_one_letter h

/-- Witness for C5 at a concrete lexicon and word. -/
theorem c5_witness :
    strW "CORD" ∈ get_possible_words validCW (strW "COLD") ∧
      ((strW "CORD").length = (strW "COLD").length ∧
        is_one_letter_change (strW "COLD") (strW "CORD") = true) :=
  ⟨by decide, c5_get_possible_words_sound validCW (strW "COLD") (strW "CORD") (by decide)⟩

/-- C6 counterexample: with a lexicon in which COLD is not a valid word,
`find_path COLD COLD` still returns `some [COLD]`, so "returns none
whenever either endpoint fails `is_valid_word`" is false — the equality
short-circuit precedes the validity checks. -/
theorem c6_counterexample :
    validNone (toUpperW (strW "COLD")) = false ∧
      find_path validNone (strW "COLD") (strW "COLD") = some [strW "COLD"] := by
  constructor
  · rfl
  · decide

/-- C6 (amended): `find_path` returns the single-element path
`[upper(start)]` whenever the two normalized words are equal (valid or
not), and returns none when they differ and either endpoint fails the
membership oracle. -/
theorem c6_find_path_endpoints (valid : Word → Bool) (s t : Word) :
    (toUpperW s = toUpperW t → find_path valid s t = some [toUpperW s]) ∧
    (toUpperW s ≠ toUpperW t →
      (valid (toUpperW s) = false ∨ valid (toUpperW t) = false) →
      find_path valid s t = none) := by
  constructor
  · intro h
    simp [find_path, h]
  · intro hne hval
    rcases hval with h | h
    · simp [find_path, hne, h]
    · by_cases hs : valid (toUpperW s) = true <;> simp [find_path, hne, h, hs]

/-- Witness for C6 (amended) at concrete inputs: a lower-case/upper-case
equal pair, and a distinct pair with invalid endpoints. -/
theorem c6_witness :
    (toUpperW (strW "cold") = toUpperW (strW "COLD") ∧
      find_path validCW (strW "cold") (strW "COLD") = some [toUpperW (strW "cold")]) ∧
    (toUpperW (strW "COLD") ≠ toUpperW (strW "WARM") ∧
      find_path validNone (strW "COLD") (strW "WARM") = none) :=
  ⟨⟨by decide, (c6_find_path_endpoints validCW (strW "cold") (strW "COLD")).1 (by decide)⟩,
   ⟨by decide, (c6_find_path_endpoints validNone (strW "COLD") (strW "WARM")).2
      (by decide) (Or.inl rfl)⟩⟩

/-- C9 counterexample: the difficulty of AREA is 53/25 > 1, so the score
is not confined to the interval [0, 1]. -/
theorem c9_counterexample :
    get_word_difficulty vDefault (strW "AREA") = 53 / 25 ∧
      ¬ (get_word_difficulty vDefault (strW "AREA") ≤ 1) := by
  have h : get_word_difficulty vDefault (strW "AREA") = 53 / 25 := by
    have h1 : toLowerW (strW "AREA") = strW "area" := by decide
    have h2 : List.countP (fun c => decide (c ∈ vowels_lower)) (strW "area") = 3 := by
      decide
    have h3 : (strW "area").length = 4 := by decide
    simp only [get_word_difficulty, h1, h2, h3, vDefault]
    rw [abs_sub_comm]
    norm_num [min_def, abs_of_nonneg]
  refine ⟨h, ?_⟩
  rw [h]
  norm_num

/-- C9 (amended): `get_word_difficulty` is exactly the weighted
combination `0.6 * length_factor + 0.4 * balance_factor`; the result is
nonnegative but is not confined to `[0, 1]` (vowel-dominant words exceed
1, see the counterexample). -/
theorem c9_difficulty_formula (v : WordValidator) (w : Word)
    (hmin : v.min_word_length = 3) (hmax : v.max_word_length = 8) :
    get_word_difficulty v w =
      3/5 * spec_length_factor w + 2/5 * spec_balance_factor w ∧
    0 ≤ get_word_difficulty v w := by
  have hEq : get_word_difficulty v w =
      3/5 * spec_length_factor w + 2/5 * spec_balance_factor w := by
    simp only [get_word_difficulty, spec_length_factor, spec_balance_factor, hmin, hmax]
    norm_num
  refine ⟨hEq, ?_⟩
  rw [hEq]
  have hbf : 0 ≤ spec_balance_factor w := by
    simp only [spec_balance_factor]
    positivity
  rcases le_or_lt 3 (toLowerW w).length with hlen | hlen
  · have hlf : 0 ≤ spec_length_factor w := by
      simp only [spec_length_factor]
      refine le_min (by norm_num) ?_
      have h3 : (3:ℚ) ≤ ((toLowerW w).length : ℚ) := by exact_mod_cast hlen
      have := div_nonneg (by linarith : (0:ℚ) ≤ ((toLowerW w).length : ℚ) - 3)
        (by norm_num : (0:ℚ) ≤ 5)
      exact this
    have h1 := mul_nonneg (by norm_num : (0:ℚ) ≤ 3/5) hlf
    have h2 := mul_nonneg (by norm_num : (0:ℚ) ≤ 2/5) hbf
    linarith
  · have hkle : List.countP (fun c => decide (c ∈ vowels_lower)) (toLowerW w) ≤
        (toLowerW w).length := List.countP_le_length _
    have hbf1 : spec_balance_factor w = 1 := by
      simp only [spec_balance_factor]
      rcases Nat.eq_zero_or_pos ((toLowerW w).length -
          List.countP (fun c => decide (c ∈ vowels_lower)) (toLowerW w)) with hc | hc
      · rw [if_pos hc]
        norm_num [abs_of_nonneg]
      · rw [if_neg (Nat.pos_iff_ne_zero.mp hc)]
        have hcase : List.countP (fun c => decide (c ∈ vowels_lower)) (toLowerW w) = 0 ∨
            (List.countP (fun c => decide (c ∈ vowels_lower)) (toLowerW w) = 1 ∧
             (toLowerW w).length -
               List.countP (fun c => decide (c ∈ vowels_lower)) (toLowerW w) = 1) := by
          omega
        rcases hcase with h0 | ⟨h1, hc1⟩
        · rw [h0]
          have hpos : (0:ℚ) < (((toLowerW w).length - 0 : ℕ) : ℚ) := by
            exact_mod_cast Nat.pos_iff_ne_zero.mpr (by omega)
          rw [Nat.cast_zero, zero_div]
          norm_num [abs_of_nonneg]
        · rw [hc1, h1]
          rw [abs_sub_comm]
          norm_num [abs_of_nonneg]
    rw [hbf1]
    have hlf2 : -(3/5 : ℚ) ≤ spec_length_factor w := by
      simp only [spec_length_factor]
      refine le_min (by norm_num) ?_
      rw [le_div_iff₀ (by norm_num : (0:ℚ) < 5)]
      have : (0:ℚ) ≤ ((toLowerW w).length : ℚ) := by positivity
      linarith
    have := mul_le_mul_of_nonneg_left hlf2 (by norm_num : (0:ℚ) ≤ 3/5)
    linarith

/-- Witness for C9 (amended) at the default validator and a concrete
word. -/
theorem c9_witness :
    vDefault.min_word_length = 3 ∧ vDefault.max_word_length = 8 ∧
    (get_word_difficulty vDefault (strW "COLD") =
        3/5 * spec_length_factor (strW "COLD") + 2/5 * spec_balance_factor (strW "COLD") ∧
      0 ≤ get_word_difficulty vDefault (strW "COLD")) :=
  ⟨rfl, rfl, c9_difficulty_formula vDefault (strW "COLD") rfl rfl⟩

/-- A rejection of the post-time-check part of `make_move` leaves the
game state it received untouched. -/
theorem rest_error_eq {valid : Word → Bool} {now : Int} {g1 : Game} {w : Word}
    {e : MoveError} {g' : Game}
    (h : make_move_rest valid now g1 w = .error (e, g')) : g' = g1 := by
  simp only [make_move_rest] at h
  split_ifs at h with h1 h2 h3
  · exact ((Prod.mk.injEq _ _ _ _).mp (Except.error.inj h)).2.symm
  · exact ((Prod.mk.injEq _ _ _ _).mp (Except.error.inj h)).2.symm
  · exact ((Prod.mk.injEq _ _ _ _).mp (Except.error.inj h)).2.symm

/-- C2: `make_move` is atomic on failure — every rejection leaves
`game.moves` and `game.current_word` exactly as they were before the
call (only `status` and `time_elapsed` may have been updated by the
time-limit block). -/
theorem c2_make_move_atomic (valid : Word → Bool) (now : Int) (g : Game) (w : Word)
    (e : MoveError) (g' : Game)
    (h : make_move valid now g w = .error (e, g')) :
    g'.moves = g.moves ∧ g'.current_word = g.current_word := by
  simp only [make_move] at h
  split_ifs at h with h1 h2 h3
  · rw [← ((Prod.mk.injEq _ _ _ _).mp (Except.error.inj h)).2]
    exact ⟨rfl, rfl⟩
  · rw [← ((Prod.mk.injEq _ _ _ _).mp (Except.error.inj h)).2]
    exact ⟨rfl, rfl⟩
  · rw [rest_error_eq h]
    exact ⟨rfl, rfl⟩
  · rw [rest_error_eq h]
    exact ⟨rfl, rfl⟩

/-- The post-time-check part of `make_move` completes the game exactly
when the submitted word equals the target, and otherwise leaves the
status it received. -/
theorem rest_ok_status {valid : Word → Bool} {now : Int} {g1 : Game} {w : Word}
    {res : MoveResult} {g' : Game}
    (h : make_move_rest valid now g1 w = .ok (res, g')) :
    (w = g1.target_word → g'.status = GameStatus.COMPLETED.value) ∧
    (w ≠ g1.target_word → g'.status = g1.status) := by
  simp only [make_move_rest] at h
  split at h
  · exact Except.noConfusion h
  split at h
  · exact Except.noConfusion h
  split at h
  · exact Except.noConfusion h
  have hg := ((Prod.mk.injEq _ _ _ _).mp (Except.ok.inj h)).2
  constructor
  · intro hT
    rw [← hg]
    simp only [if_pos hT]
    split <;> rfl
  · intro hT
    rw [← hg]
    simp only [if_neg hT]
    split <;> rfl

/-- Assembling the status facts of a successful move into the
completed-iff-target statement. -/
theorem status_iff_of_parts {g g' : Game} {wu : Word}
    (hsEq : g.status = GameStatus.IN_PROGRESS.value)
    (h1 : wu = g.target_word → g'.status = GameStatus.COMPLETED.value)
    (h2 : wu ≠ g.target_word → g'.status = g.status) :
    (g'.status = GameStatus.COMPLETED.value ↔ wu = g.target_word) ∧
    (wu ≠ g.target_word → g'.status = GameStatus.IN_PROGRESS.value) := by
  constructor
  · constructor
    · intro hC
      by_contra hne
      have hx := h2 hne
      rw [hsEq] at hx
      rw [hx] at hC
      exact absurd hC (by decide)
    · exact h1
  · intro hne
    rw [h2 hne, hsEq]

/-- C4: for every game and word accepted by `make_move`, the resulting
status is Completed if and only if the uppercase-normalized word equals
the game's target word, and otherwise the status remains InProgress. -/
theorem c4_completed_iff (valid : Word → Bool) (now : Int) (g : Game) (w : Word)
    (res : MoveResult) (g' : Game)
    (h : make_move valid now g w = .ok (res, g')) :
    (g'.status = GameStatus.COMPLETED.value ↔ toUpperW w = g.target_word) ∧
    (toUpperW w ≠ g.target_word → g'.status = GameStatus.IN_PROGRESS.value) := by
  simp only [make_move] at h
  split at h
  · exact Except.noConfusion h
  rename_i hs
  have hsEq : g.status = GameStatus.IN_PROGRESS.value := not_not.mp hs
  split at h
  · split at h
    · exact Except.noConfusion h
    · exact status_iff_of_parts hsEq (rest_ok_status h).1 (rest_ok_status h).2
  · exact status_iff_of_parts hsEq (rest_ok_status h).1 (rest_ok_status h).2

/-- Witness for C2: a move on a completed game is rejected with the
terminal-game error and the state unchanged. -/
theorem c2_witness :
    make_move validCW 0 gameDone (strW "CORD") = .error (.gameTerminal, gameDone) ∧
    (gameDone.moves = gameDone.moves ∧ gameDone.current_word = gameDone.current_word) :=
  ⟨rfl, c2_make_move_atomic validCW 0 gameDone (strW "CORD") .gameTerminal gameDone rfl⟩

/-- Witness for C4: a concrete accepted move that reaches the target. -/
theorem c4_witness :
    make_move validCC 0 gameNear (strW "CORD") =
      .ok ({ is_target := true, moves_count := 1, path := [strW "CORD"],
             message := "Congratulations! You\'ve reached the target word in 1 moves." },
           { gameNear with
             moves := [strW "CORD"], current_word := strW "CORD",
             status := GameStatus.COMPLETED.value }) ∧
    ((({ gameNear with
          moves := [strW "CORD"], current_word := strW "CORD",
          status := GameStatus.COMPLETED.value } : Game).status =
          GameStatus.COMPLETED.value ↔ toUpperW (strW "CORD") = gameNear.target_word) ∧
      (toUpperW (strW "CORD") ≠ gameNear.target_word →
        ({ gameNear with
           moves := [strW "CORD"], current_word := strW "CORD",
           status := GameStatus.COMPLETED.value } : Game).status =
          GameStatus.IN_PROGRESS.value)) :=
  ⟨rfl, c4_completed_iff validCC 0 gameNear (strW "CORD") _ _ rfl⟩

/-- C10: a `Game` built with the model's defaults has status `"active"`,
which lies outside the spec's three-state set; every `make_move` on such
a game is rejected as terminal and every `get_hint` returns the
terminal-state General hint, because `"active" != "in_progress"`. -/
theorem c10_active_default_terminal (valid : Word → Bool) (now : Int) (g : Game)
    (w : Word) (hint_level : Nat) (h : g.status = "active") :
    gameDefault.status = "active" ∧
    ("active" ≠ GameStatus.IN_PROGRESS.value ∧ "active" ≠ GameStatus.COMPLETED.value ∧
      "active" ≠ GameStatus.ABANDONED.value) ∧
    make_move valid now g w = .error (.gameTerminal, g) ∧
    get_hint valid g hint_level =
      { hint_type := HintType.GENERAL, hint_text := "Game is already completed!" } := by
  have hne : g.status ≠ GameStatus.IN_PROGRESS.value := by
    rw [h]; decide
  refine ⟨rfl, ⟨by decide, by decide, by decide⟩, ?_, ?_⟩
  · simp only [make_move, if_pos hne]
  · simp only [get_hint, if_pos hne]

/-- Witness for C10 at the concrete default-built game. -/
theorem c10_witness :
    gameDefault.status = "active" ∧
    (gameDefault.status = "active" ∧
      ("active" ≠ GameStatus.IN_PROGRESS.value ∧ "active" ≠ GameStatus.COMPLETED.value ∧
        "active" ≠ GameStatus.ABANDONED.value) ∧
      make_move validCW 0 gameDefault (strW "CORD") = .error (.gameTerminal, gameDefault) ∧
      get_hint validCW gameDefault 3 =
        { hint_type := HintType.GENERAL, hint_text := "Game is already completed!" }) :=
  ⟨rfl, c10_active_default_terminal validCW 0 gameDefault (strW "CORD") 3 rfl⟩

/-- C3 failing input: a TIMED in-progress game created at epoch second 0
with a move submitted at second 86401 (one day plus one second later,
elapsed 86401 > 300).  `timedelta.seconds` is the day remainder 1, so the
code does not abandon the game and proceeds to word validation, updating
`time_elapsed` to 1; the claim (and the spec's intent, a 5-minute limit)
requires TimeExceeded and status Abandoned. -/
theorem c3_timed_day_rollover :
    timedeltaSeconds (86401 - 0) = 1 ∧
    make_move validNone 86401 gameTimed (strW "COLD") =
      .error (.invalidWord, { gameTimed with time_elapsed := 1 }) ∧
    ({ gameTimed with time_elapsed := 1 } : Game).status = GameStatus.IN_PROGRESS.value :=
  ⟨rfl, rfl, rfl⟩

/-- Characterization of the Boolean decision of `is_valid_word` in terms
of the validator's fields. -/
theorem is_valid_word_fst_iff (v : WordValidator) (x : Word) :
    (is_valid_word v x).1 = true ↔
      x ≠ [] ∧
      ¬((stripW x).length < v.min_word_length ∨ (stripW x).length > v.max_word_length) ∧
      (stripW x ≠ [] ∧ ∀ c ∈ stripW x, ('A' ≤ c ∧ c ≤ 'Z') ∨ ('a' ≤ c ∧ c ≤ 'z')) ∧
      toUpperW (stripW x) ∉ excluded_words ∧
      (v.wordnet_cache.lookup (toUpperW (stripW x)) = some true ∨
        (v.wordnet_cache.lookup (toUpperW (stripW x)) = none ∧
          ((toUpperW (stripW x) ∈ v.custom_words ∨ toLowerW (stripW x) ∈ v.custom_words) ∨
            (v.nltk_words_cache ≠ [] ∧ toUpperW (stripW x) ∈ v.nltk_words_cache) ∨
            (v.wordnet_synsets (toLowerW (stripW x)) = true ∧
              is_good_english_word (toUpperW (stripW x)) = true)))) := by
  constructor
  · intro h
    unfold is_valid_word at h
    dsimp only at h
    split at h
    · exact absurd h (by simp)
    split at h
    · exact absurd h (by simp)
    split at h
    · exact absurd h (by simp)
    split at h
    · exact absurd h (by simp)
    rename_i h1 h2 h3 h4
    refine ⟨h1, h2, not_not.mp h3, h4, ?_⟩
    split at h
    · rename_i b hL
      rw [hL]
      simp only at h
      rw [h]
      exact Or.inl rfl
    · rename_i hL
      split at h
      · rename_i h5
        exact Or.inr ⟨hL, Or.inl h5⟩
      split at h
      · rename_i h6
        exact Or.inr ⟨hL, Or.inr (Or.inl h6)⟩
      split at h
      · rename_i h7
        exact Or.inr ⟨hL, Or.inr (Or.inr h7)⟩
      · exact absurd h (by simp)
  · rintro ⟨hx, hlen, hre, hexc, hD⟩
    unfold is_valid_word
    dsimp only
    rw [if_neg hx, if_neg hlen, if_neg (not_not_intro hre), if_neg hexc]
    rcases hD with hL | ⟨hL, hd⟩
    · rw [hL]
    · rw [hL]
      by_cases h5 : toUpperW (stripW x) ∈ v.custom_words ∨ toLowerW (stripW x) ∈ v.custom_words
      · rw [if_pos h5]
      rw [if_neg h5]
      rcases hd with hd | hd | hd
      · exact absurd hd h5
      · rw [if_pos hd]
      · by_cases h6 : v.nltk_words_cache ≠ [] ∧ toUpperW (stripW x) ∈ v.nltk_words_cache
        · rw [if_pos h6]
        · rw [if_neg h6, if_pos hd]

/-- The facts recorded by a passing quality filter on an upper-cased
word. -/
theorem good_word_facts {u : Word} (hu : toUpperW u = u)
    (hg : is_good_english_word u = true) :
    u ∉ excluded_words ∧ (u ≠ [] ∧ ∀ c ∈ u, 'A' ≤ c ∧ c ≤ 'Z') ∧
      3 ≤ u.length ∧ u.length ≤ 8 := by
  unfold is_good_english_word at hg
  dsimp only at hg
  rw [hu] at hg
  split at hg
  · exact absurd hg (by simp)
  split at hg
  · exact absurd hg (by simp)
  split at hg
  · exact absurd hg (by simp)
  rename_i h1 h2 h3
  refine ⟨h1, not_not.mp h2, ?_, ?_⟩ <;> omega

/-- The lower-case alphabet lies in the range `'a'..'z'`. -/
theorem lower_alpha_range : ∀ c ∈ lowercase_alphabet, 'a' ≤ c ∧ c ≤ 'z' := by decide

/-- A character whose upper-casing is an upper-case letter is itself a
letter. -/
theorem letter_of_upChar_letter {c : Char} (h : 'A' ≤ upChar c ∧ upChar c ≤ 'Z') :
    ('A' ≤ c ∧ c ≤ 'Z') ∨ ('a' ≤ c ∧ c ≤ 'z') := by
  by_cases hc : c ∈ lowercase_alphabet
  · exact Or.inr (lower_alpha_range c hc)
  · left
    rw [upChar_eq_self_of_not_lower (fun d hd hcd => hc (by rw [hcd]; exact hd))] at h
    exact h

/-- Letters are not whitespace. -/
theorem alpha_not_whitespace {c : Char}
    (h : ('A' ≤ c ∧ c ≤ 'Z') ∨ ('a' ≤ c ∧ c ≤ 'z')) : c.isWhitespace = false := by
  by_contra hw
  rw [Bool.not_eq_false] at hw
  simp only [Char.isWhitespace, Bool.or_eq_true, decide_eq_true_eq] at hw
  rcases hw with ((rfl | rfl) | rfl) | rfl <;>
    rcases h with ⟨h1, h2⟩ | ⟨h1, h2⟩ <;> revert h1 h2 <;> decide

/-- `strip()` of a whitespace-free word is the word itself. -/
theorem stripW_eq_self {w : Word} (h : ∀ c ∈ w, c.isWhitespace = false) :
    stripW w = w := by
  unfold stripW
  have h1 : w.dropWhile Char.isWhitespace = w := by
    cases w with
    | nil => rfl
    | cons a t =>
      rw [List.dropWhile_cons, if_neg (by simp [h a (by simp)])]
  rw [h1]
  have h2 : w.reverse.dropWhile Char.isWhitespace = w.reverse := by
    cases hrev : w.reverse with
    | nil => rfl
    | cons a t =>
      have ha : a ∈ w := by
        rw [← List.mem_reverse, hrev]
        simp
      rw [List.dropWhile_cons, if_neg (by simp [h a ha])]
  rw [h2, List.reverse_reverse]

/-- C8 counterexample: ZORK passes the quality filter, but after a single
negative membership query (state `vZork`, whose memo cache holds
`ZORK ↦ False`), `add_word ZORK` followed by `is_valid_word ZORK` still
returns False — the memo cache shadows the new custom-dictionary
entry. -/
theorem c8_counterexample :
    is_good_english_word (toUpperW (strW "ZORK")) = true ∧
    (is_valid_word vSample (strW "ZORK")).1 = false ∧
    vZork.wordnet_cache.lookup (toUpperW (strW "ZORK")) = some false ∧
    (is_valid_word (add_word vZork (strW "ZORK")) (strW "ZORK")).1 = false := by
  refine ⟨by decide, by decide, by decide, by decide⟩

/-- C8 (amended): with the default length bounds, `add_word w` makes a
quality-passing word `w` valid provided the decision cache holds no
negative entry for it; and `add_word` is monotone — every previously
valid word stays valid. -/
theorem c8_add_word_admits (v : WordValidator) (w : Word)
    (hmin : v.min_word_length = 3) (hmax : v.max_word_length = 8)
    (hg : is_good_english_word (toUpperW w) = true)
    (hcache : v.wordnet_cache.lookup (toUpperW w) = none ∨
      v.wordnet_cache.lookup (toUpperW w) = some true) :
    (is_valid_word (add_word v w) w).1 = true ∧
    ∀ x, (is_valid_word v x).1 = true → (is_valid_word (add_word v w) x).1 = true := by
  have hva : add_word v w =
      { v with custom_words := toLowerW w :: toUpperW w :: v.custom_words } := by
    unfold add_word
    rw [if_pos hg]
  have hfix : toUpperW (toUpperW w) = toUpperW w := toUpperW_idem w
  obtain ⟨hexc, ⟨hne, hAZ⟩, hlen3, hlen8⟩ := good_word_facts hfix hg
  have halpha : ∀ c ∈ w, ('A' ≤ c ∧ c ≤ 'Z') ∨ ('a' ≤ c ∧ c ≤ 'z') := by
    intro c hc
    exact letter_of_upChar_letter (hAZ (upChar c) (List.mem_map_of_mem _ hc))
  have hw_ne : w ≠ [] := by
    intro hnil
    rw [hnil] at hne
    exact hne rfl
  have hstrip : stripW w = w :=
    stripW_eq_self (fun c hc => alpha_not_whitespace (halpha c hc))
  have hlen : w.length = (toUpperW w).length := (toUpperW_length w).symm
  constructor
  · rw [is_valid_word_fst_iff, hva]
    refine ⟨hw_ne, ?_, ?_, ?_, ?_⟩
    · rw [hstrip]
      simp only [hmin, hmax]
      omega
    · rw [hstrip]
      exact ⟨hw_ne, halpha⟩
    · rw [hstrip]
      exact hexc
    · rw [hstrip]
      rcases hcache with hL | hL
      · exact Or.inr ⟨hL, Or.inl (Or.inl (by simp))⟩
      · exact Or.inl hL
  · intro x hx
    rw [is_valid_word_fst_iff] at hx
    rw [is_valid_word_fst_iff, hva]
    obtain ⟨a1, a2, a3, a4, a5⟩ := hx
    refine ⟨a1, a2, a3, a4, ?_⟩
    rcases a5 with h | ⟨hL, hd⟩
    · exact Or.inl h
    · refine Or.inr ⟨hL, ?_⟩
      rcases hd with hc | hc | hc
      · rcases hc with h | h
        · exact Or.inl (Or.inl (List.mem_cons_of_mem _ (List.mem_cons_of_mem _ h)))
        · exact Or.inl (Or.inr (List.mem_cons_of_mem _ (List.mem_cons_of_mem _ h)))
      · exact Or.inr (Or.inl hc)
      · exact Or.inr (Or.inr hc)

/-- Witness for C8 (amended) at a concrete validator state and words. -/
theorem c8_witness :
    (vSample.min_word_length = 3 ∧ vSample.max_word_length = 8 ∧
      is_good_english_word (toUpperW (strW "WORD")) = true ∧
      vSample.wordnet_cache.lookup (toUpperW (strW "WORD")) = none) ∧
    (is_valid_word (add_word vSample (strW "WORD")) (strW "WORD")).1 = true ∧
    ((is_valid_word vSample (strW "COLD")).1 = true ∧
      (is_valid_word (add_word vSample (strW "WORD")) (strW "COLD")).1 = true) :=
  ⟨⟨rfl, rfl, by decide, by decide⟩,
   (c8_add_word_admits vSample (strW "WORD") rfl rfl (by decide) (Or.inl (by decide))).1,
   ⟨by decide,
    (c8_add_word_admits vSample (strW "WORD") rfl rfl (by decide)
      (Or.inl (by decide))).2 (strW "COLD") (by decide)⟩⟩

/-- Prepending one edge to a reachability chain. -/
theorem reachN_cons {valid : Word → Bool} {a b c : Word} {n : Nat}
    (hab : Adj valid a b) (h : ReachN valid b c n) : ReachN valid a c (n + 1) := by
  induction h with
  | refl => exact (ReachN.refl a).step hab
  | step h1 h2 ih => exact ih.step h2

/-- Concatenating reachability chains adds the step counts. -/
theorem reachN_trans {valid : Word → Bool} {a b c : Word} {m n : Nat}
    (h1 : ReachN valid a b m) (h2 : ReachN valid b c n) :
    ReachN valid a c (m + n) := by
  induction h2 with
  | refl => exact h1
  | step h3 h4 ih => exact ih.step h4

/-- A reachability chain can be split at any intermediate step count. -/
theorem reachN_split {valid : Word → Bool} {s t : Word} {d k : Nat}
    (hr : ReachN valid s t d) (hk : k ≤ d) :
    ∃ x, ReachN valid s x k ∧ ReachN valid x t (d - k) := by
  induction hr with
  | refl =>
    obtain rfl : k = 0 := Nat.le_zero.mp hk
    exact ⟨s, ReachN.refl s, ReachN.refl s⟩
  | @step b c n h1 h2 ih =>
    rcases Nat.lt_or_ge k (n + 1) with hlt | hge
    · have hk' : k ≤ n := Nat.lt_succ_iff.mp hlt
      obtain ⟨x, hx1, hx2⟩ := ih hk'
      refine ⟨x, hx1, ?_⟩
      rw [Nat.succ_sub hk']
      exact hx2.step h2
    · obtain rfl : k = n + 1 := Nat.le_antisymm hk hge
      refine ⟨c, h1.step h2, ?_⟩
      rw [Nat.sub_self]
      exact ReachN.refl c

/-- A single-step reachability chain is an edge. -/
theorem reachN_one_adj {valid : Word → Bool} {x t : Word}
    (h : ReachN valid x t 1) : Adj valid x t := by
  cases h with
  | step h1 h2 =>
    cases h1 with
    | refl => exact h2

/-- A chain of adjacent words from `a` to `b` yields reachability in its
edge count. -/
theorem reachN_of_chain {valid : Word → Bool} :
    ∀ (q : List Word) (a b : Word), q.Chain' (Adj valid) → q.head? = some a →
      q.getLast? = some b → ReachN valid a b (q.length - 1) := by
  intro q
  induction q with
  | nil => intro a b _ hh _; exact absurd hh (by simp)
  | cons c cs ih =>
    intro a b hc hh hl
    have hca : c = a := by simpa using hh
    subst hca
    cases cs with
    | nil =>
      have hcb : c = b := by simpa using hl
      subst hcb
      exact ReachN.refl c
    | cons c2 cs2 =>
      rw [List.chain'_cons] at hc
      have h2 : (c2 :: cs2).getLast? = some b := by
        rw [← hl]
        exact (List.getLast?_cons_cons ..).symm
      have hr := reachN_cons hc.1 (ih c2 b hc.2 rfl h2)
      simpa using hr

/-- A word-graph path yields reachability in its edge count. -/
theorem ladder_reachN {valid : Word → Bool} {a b : Word} {q : List Word}
    (h : LadderFromTo valid a b q) : ReachN valid a b (q.length - 1) :=
  reachN_of_chain q a b h.2.2 h.1 h.2.1

/-- Entry well-formedness is monotone in the visited set. -/
theorem EntryOK_mono {valid : Word → Bool} {s : Word} {len : Nat}
    {v1 v2 : List Word} {e : Entry} (hsub : ∀ y ∈ v1, y ∈ v2)
    (h : EntryOK valid s len v1 e) : EntryOK valid s len v2 e := by
  obtain ⟨a, b, c, d, e1, f⟩ := h
  exact ⟨a, b, c, d, e1, fun x hx => hsub x (f x hx)⟩

/-- The inner BFS loop only grows the visited set and the next-level
queue. -/
theorem visitNexts_mono (t : Word) (path : List Word) (nexts : List Word) :
    ∀ (visited : List Word) (nq : List Entry) (v' : List Word) (nq' : List Entry),
      visitNexts t path nexts visited nq = .cont v' nq' →
      (∀ y ∈ visited, y ∈ v') ∧ (∀ e ∈ nq, e ∈ nq') := by
  induction nexts with
  | nil =>
    intro visited nq v' nq' h
    simp only [visitNexts] at h
    cases h
    exact ⟨fun y hy => hy, fun e he => he⟩
  | cons n0 rest ih =>
    intro visited nq v' nq' h
    simp only [visitNexts] at h
    by_cases h1 : toUpperW n0 ∈ visited
    · rw [if_pos h1] at h
      exact ih visited nq v' nq' h
    · rw [if_neg h1] at h
      by_cases h2 : toUpperW n0 = t
      · rw [if_pos h2] at h
        exact StepRes.noConfusion h
      · rw [if_neg h2] at h
        obtain ⟨hm1, hm2⟩ := ih _ _ _ _ h
        exact ⟨fun y hy => hm1 y (List.mem_cons_of_mem _ hy),
               fun e he => hm2 e (List.mem_append_left _ he)⟩

/-- The inner BFS loop visits every word of its input list (when it does
not return). -/
theorem visitNexts_cover (t : Word) (path : List Word) (nexts : List Word) :
    ∀ (visited : List Word) (nq : List Entry) (v' : List Word) (nq' : List Entry),
      visitNexts t path nexts visited nq = .cont v' nq' →
      ∀ y ∈ nexts, toUpperW y ∈ v' := by
  induction nexts with
  | nil =>
    intro visited nq v' nq' _ y hy
    simp at hy
  | cons n0 rest ih =>
    intro visited nq v' nq' h y hy
    simp only [visitNexts] at h
    by_cases h1 : toUpperW n0 ∈ visited
    · rw [if_pos h1] at h
      rcases List.mem_cons.mp hy with rfl | hy'
      · exact (visitNexts_mono t path rest visited nq v' nq' h).1 _ h1
      · exact ih _ _ _ _ h y hy'
    · rw [if_neg h1] at h
      by_cases h2 : toUpperW n0 = t
      · rw [if_pos h2] at h
        exact StepRes.noConfusion h
      · rw [if_neg h2] at h
        rcases List.mem_cons.mp hy with rfl | hy'
        · exact (visitNexts_mono t path rest _ _ _ _ h).1 _ (List.mem_cons_self _ _)
        · exact ih _ _ _ _ h y hy'

/-- The inner BFS loop never adds the target to the visited set (when it
does not return). -/
theorem visitNexts_target (t : Word) (path : List Word) (nexts : List Word) :
    ∀ (visited : List Word) (nq : List Entry) (v' : List Word) (nq' : List Entry),
      t ∉ visited →
      visitNexts t path nexts visited nq = .cont v' nq' → t ∉ v' := by
  induction nexts with
  | nil =>
    intro visited nq v' nq' ht h
    simp only [visitNexts] at h
    cases h
    exact ht
  | cons n0 rest ih =>
    intro visited nq v' nq' ht h
    simp only [visitNexts] at h
    by_cases h1 : toUpperW n0 ∈ visited
    · rw [if_pos h1] at h
      exact ih _ _ _ _ ht h
    · rw [if_neg h1] at h
      by_cases h2 : toUpperW n0 = t
      · rw [if_pos h2] at h
        exact StepRes.noConfusion h
      · rw [if_neg h2] at h
        refine ih _ _ _ _ ?_ h
        intro hmem
        rcases List.mem_cons.mp hmem with hx | hx
        · exact h2 hx.symm
        · exact ht hx

/-- Every word visited by the inner BFS loop was already visited or is a
word of the produced next-level queue. -/
theorem visitNexts_newv (t : Word) (path : List Word) (nexts : List Word) :
    ∀ (visited : List Word) (nq : List Entry) (v' : List Word) (nq' : List Entry),
      visitNexts t path nexts visited nq = .cont v' nq' →
      ∀ x ∈ v', x ∈ visited ∨ x ∈ nq'.map Prod.fst := by
  induction nexts with
  | nil =>
    intro visited nq v' nq' h x hx
    simp only [visitNexts] at h
    cases h
    exact Or.inl hx
  | cons n0 rest ih =>
    intro visited nq v' nq' h x hx
    simp only [visitNexts] at h
    by_cases h1 : toUpperW n0 ∈ visited
    · rw [if_pos h1] at h
      exact ih _ _ _ _ h x hx
    · rw [if_neg h1] at h
      by_cases h2 : toUpperW n0 = t
      · rw [if_pos h2] at h
        exact StepRes.noConfusion h
      · rw [if_neg h2] at h
        rcases ih _ _ _ _ h x hx with hx' | hx'
        · rcases List.mem_cons.mp hx' with rfl | hx''
          · have hent := (visitNexts_mono t path rest _ _ _ _ h).2
              (toUpperW n0, path ++ [toUpperW n0]) (by simp)
            exact Or.inr (List.mem_map_of_mem Prod.fst hent)
          · exact Or.inl hx''
        · exact Or.inr hx'

/-- The inner BFS loop keeps every next-level entry well-formed: old
entries stay well-formed, and each newly appended entry extends the
current path by one adjacent unvisited word. -/
theorem visitNexts_entries {valid : Word → Bool} (s t cur : Word) (k : Nat)
    (path : List Word)
    (hpc : path.Chain' (Adj valid)) (hph : path.head? = some s)
    (hpl : path.getLast? = some cur) (hplen : path.length = k + 1)
    (hpnd : path.Nodup) (nexts : List Word) :
    ∀ (visited : List Word) (nq : List Entry) (v' : List Word) (nq' : List Entry),
      (∀ y ∈ nexts, toUpperW y = y ∧ Adj valid cur y) →
      (∀ x ∈ path, x ∈ visited) →
      (∀ e ∈ nq, EntryOK valid s (k + 2) visited e) →
      visitNexts t path nexts visited nq = .cont v' nq' →
      ∀ e ∈ nq', EntryOK valid s (k + 2) v' e := by
  induction nexts with
  | nil =>
    intro visited nq v' nq' _ _ hq h
    simp only [visitNexts] at h
    cases h
    exact hq
  | cons n0 rest ih =>
    intro visited nq v' nq' hn hsub hq h
    simp only [visitNexts] at h
    obtain ⟨hfix0, hadj0⟩ := hn n0 (List.mem_cons_self _ _)
    have hnrest : ∀ y ∈ rest, toUpperW y = y ∧ Adj valid cur y :=
      fun y hy => hn y (List.mem_cons_of_mem _ hy)
    by_cases h1 : toUpperW n0 ∈ visited
    · rw [if_pos h1] at h
      exact ih _ _ _ _ hnrest hsub hq h
    · rw [if_neg h1] at h
      by_cases h2 : toUpperW n0 = t
      · rw [if_pos h2] at h
        exact StepRes.noConfusion h
      · rw [if_neg h2] at h
        refine ih _ _ _ _ hnrest
          (fun x hx => List.mem_cons_of_mem _ (hsub x hx)) ?_ h
        intro e he
        rcases List.mem_append.mp he with he' | he'
        · exact EntryOK_mono (fun y hy => List.mem_cons_of_mem _ hy) (hq e he')
        · have he2 : e = (toUpperW n0, path ++ [toUpperW n0]) := by simpa using he'
          subst he2
          refine ⟨?_, ?_, ?_, ?_, ?_, ?_⟩
          · rw [List.chain'_append]
            refine ⟨hpc, List.chain'_singleton _, ?_⟩
            intro x hx y hy
            rw [hpl] at hx
            have hx' : cur = x := by simpa using hx
            have hy' : toUpperW n0 = y := by simpa using hy
            subst hx'
            subst hy'
            rw [hfix0]
            exact hadj0
          · cases path with
            | nil => exact absurd hph (by simp)
            | cons p ps => simpa using hph
          · simp
          · simp [hplen]
          · have hnp : toUpperW n0 ∉ path := fun hmem => h1 (hsub _ hmem)
            simp [List.nodup_append, hpnd, hnp]
          · intro x hx
            rcases List.mem_append.mp hx with hx' | hx'
            · exact List.mem_cons_of_mem _ (hsub x hx')
            · have hx2 : x = toUpperW n0 := by simpa using hx'
              subst hx2
              exact List.mem_cons_self _ _

/-- If the inner BFS loop returns a path, that path is a simple
word-graph path from the source to the target with one more node than the
current path. -/
theorem visitNexts_found_sound {valid : Word → Bool} (s t cur : Word) (k : Nat)
    (path : List Word)
    (hpc : path.Chain' (Adj valid)) (hph : path.head? = some s)
    (hpl : path.getLast? = some cur) (hplen : path.length = k + 1)
    (hpnd : path.Nodup) (nexts : List Word) :
    ∀ (visited : List Word) (nq : List Entry) (p : List Word),
      (∀ y ∈ nexts, toUpperW y = y ∧ Adj valid cur y) →
      (∀ x ∈ path, x ∈ visited) → t ∉ visited →
      visitNexts t path nexts visited nq = .found p →
      LadderFromTo valid s t p ∧ p.Nodup ∧ p.length = k + 2 := by
  induction nexts with
  | nil =>
    intro visited nq p _ _ _ h
    simp only [visitNexts] at h
    exact StepRes.noConfusion h
  | cons n0 rest ih =>
    intro visited nq p hn hsub ht h
    simp only [visitNexts] at h
    obtain ⟨hfix0, hadj0⟩ := hn n0 (List.mem_cons_self _ _)
    have hnrest : ∀ y ∈ rest, toUpperW y = y ∧ Adj valid cur y :=
      fun y hy => hn y (List.mem_cons_of_mem _ hy)
    by_cases h1 : toUpperW n0 ∈ visited
    · rw [if_pos h1] at h
      exact ih _ _ _ hnrest hsub ht h
    · rw [if_neg h1] at h
      by_cases h2 : toUpperW n0 = t
      · rw [if_pos h2] at h
        have hp : p = path ++ [toUpperW n0] := by
          cases h
          rfl
        subst hp
        refine ⟨⟨?_, ?_, ?_⟩, ?_, ?_⟩
        · cases path with
          | nil => exact absurd hph (by simp)
          | cons q qs => simpa using hph
        · simp [h2]
        · rw [List.chain'_append]
          refine ⟨hpc, List.chain'_singleton _, ?_⟩
          intro x hx y hy
          rw [hpl] at hx
          have hx' : cur = x := by simpa using hx
          have hy' : toUpperW n0 = y := by simpa using hy
          subst hx'
          subst hy'
          rw [hfix0]
          exact hadj0
        · have hnp : toUpperW n0 ∉ path := fun hmem => h1 (hsub _ hmem)
          simp [List.nodup_append, hpnd, hnp]
        · simp [hplen]
      · rw [if_neg h2] at h
        refine ih _ _ _ hnrest
          (fun x hx => List.mem_cons_of_mem _ (hsub x hx)) ?_ h
        intro hmem
        rcases List.mem_cons.mp hmem with hx | hx
        · exact h2 hx.symm
        · exact ht hx

/-- If the target is an (upper-cased) member of the word list being
scanned and has not been visited, the inner BFS loop returns a path. -/
theorem visitNexts_found_complete (t : Word) (path : List Word) (nexts : List Word) :
    ∀ (visited : List Word) (nq : List Entry),
      t ∉ visited → (∃ y ∈ nexts, toUpperW y = t) →
      ∃ p, visitNexts t path nexts visited nq = .found p := by
  induction nexts with
  | nil =>
    intro visited nq _ hy
    simp at hy
  | cons n0 rest ih =>
    intro visited nq ht hy
    obtain ⟨y, hy, hyt⟩ := hy
    simp only [visitNexts]
    by_cases h1 : toUpperW n0 ∈ visited
    · rw [if_pos h1]
      rcases List.mem_cons.mp hy with rfl | hy'
      · exact absurd (by rw [← hyt]; exact h1) ht
      · exact ih _ _ ht ⟨y, hy', hyt⟩
    · rw [if_neg h1]
      by_cases h2 : toUpperW n0 = t
      · rw [if_pos h2]
        exact ⟨_, rfl⟩
      · rw [if_neg h2]
        have ht1 : t ∉ toUpperW n0 :: visited := by
          intro hmem
          rcases List.mem_cons.mp hmem with hx | hx
          · exact h2 hx.symm
          · exact ht hx
        rcases List.mem_cons.mp hy with rfl | hy'
        · exact absurd hyt h2
        · exact ih _ _ ht1 ⟨y, hy', hyt⟩

/-- The level loop only grows the visited set and the next-level
queue. -/
theorem processQueue_mono {valid : Word → Bool} (t : Word) :
    ∀ (queue : List Entry) (visited : List Word) (nq : List Entry)
      (v' : List Word) (nq' : List Entry),
      processQueue valid t queue visited nq = .cont v' nq' →
      (∀ y ∈ visited, y ∈ v') ∧ (∀ e ∈ nq, e ∈ nq') := by
  intro queue
  induction queue with
  | nil =>
    intro visited nq v' nq' h
    simp only [processQueue] at h
    cases h
    exact ⟨fun y hy => hy, fun e he => he⟩
  | cons e0 qrest ih =>
    obtain ⟨cur, path⟩ := e0
    intro visited nq v' nq' h
    simp only [processQueue] at h
    cases hV : visitNexts t path (get_possible_words valid cur) visited nq with
    | found p =>
      rw [hV] at h
      exact StepRes.noConfusion h
    | cont v1 nq1 =>
      rw [hV] at h
      obtain ⟨hm1, hm2⟩ := visitNexts_mono t path _ _ _ _ _ hV
      obtain ⟨hm1', hm2'⟩ := ih _ _ _ _ h
      exact ⟨fun y hy => hm1' y (hm1 y hy), fun e he => hm2' e (hm2 e he)⟩

/-- Every neighbor of every queued word is visited once the level loop
completes without returning. -/
theorem processQueue_cover {valid : Word → Bool} (t : Word) :
    ∀ (queue : List Entry) (visited : List Word) (nq : List Entry)
      (v' : List Word) (nq' : List Entry),
      processQueue valid t queue visited nq = .cont v' nq' →
      ∀ e ∈ queue, ∀ y ∈ get_possible_words valid e.1, y ∈ v' := by
  intro queue
  induction queue with
  | nil =>
    intro visited nq v' nq' _ e he
    simp at he
  | cons e0 qrest ih =>
    obtain ⟨cur, path⟩ := e0
    intro visited nq v' nq' h e he y hy
    simp only [processQueue] at h
    cases hV : visitNexts t path (get_possible_words valid cur) visited nq with
    | found p =>
      rw [hV] at h
      exact StepRes.noConfusion h
    | cont v1 nq1 =>
      rw [hV] at h
      rcases List.mem_cons.mp he with rfl | he'
      · have hy1 := visitNexts_cover t path _ _ _ _ _ hV y hy
        rw [gpw_fixed hy] at hy1
        exact (processQueue_mono t _ _ _ _ _ h).1 y hy1
      · exact ih _ _ _ _ h e he' y hy

/-- The level loop never adds the target to the visited set (when it does
not return). -/
theorem processQueue_target {valid : Word → Bool} (t : Word) :
    ∀ (queue : List Entry) (visited : List Word) (nq : List Entry)
      (v' : List Word) (nq' : List Entry),
      t ∉ visited →
      processQueue valid t queue visited nq = .cont v' nq' → t ∉ v' := by
  intro queue
  induction queue with
  | nil =>
    intro visited nq v' nq' ht h
    simp only [processQueue] at h
    cases h
    exact ht
  | cons e0 qrest ih =>
    obtain ⟨cur, path⟩ := e0
    intro visited nq v' nq' ht h
    simp only [processQueue] at h
    cases hV : visitNexts t path (get_possible_words valid cur) visited nq with
    | found p =>
      rw [hV] at h
      exact StepRes.noConfusion h
    | cont v1 nq1 =>
      rw [hV] at h
      exact ih _ _ _ _ (visitNexts_target t path _ _ _ _ _ ht hV) h

/-- Every word visited during a level was already visited or is a word of
the produced next-level queue. -/
theorem processQueue_newv {valid : Word → Bool} (t : Word) :
    ∀ (queue : List Entry) (visited : List Word) (nq : List Entry)
      (v' : List Word) (nq' : List Entry),
      processQueue valid t queue visited nq = .cont v' nq' →
      ∀ x ∈ v', x ∈ visited ∨ x ∈ nq'.map Prod.fst := by
  intro queue
  induction queue with
  | nil =>
    intro visited nq v' nq' h x hx
    simp only [processQueue] at h
    cases h
    exact Or.inl hx
  | cons e0 qrest ih =>
    obtain ⟨cur, path⟩ := e0
    intro visited nq v' nq' h x hx
    simp only [processQueue] at h
    cases hV : visitNexts t path (get_possible_words valid cur) visited nq with
    | found p =>
      rw [hV] at h
      exact StepRes.noConfusion h
    | cont v1 nq1 =>
      rw [hV] at h
      rcases ih _ _ _ _ h x hx with hx' | hx'
      · rcases visitNexts_newv t path _ _ _ _ _ hV x hx' with hx'' | hx''
        · exact Or.inl hx''
        · obtain ⟨e, he, hef⟩ := List.mem_map.mp hx''
          exact Or.inr (List.mem_map.mpr ⟨e, (processQueue_mono t _ _ _ _ _ h).2 e he, hef⟩)
      · exact Or.inr hx'

/-- The level loop keeps every next-level entry well-formed at the next
length. -/
theorem processQueue_entries {valid : Word → Bool} {s t : Word} {k : Nat} :
    ∀ (queue : List Entry) (visited : List Word) (nq : List Entry)
      (v' : List Word) (nq' : List Entry),
      (∀ e ∈ queue, EntryOK valid s (k + 1) visited e) →
      (∀ e ∈ nq, EntryOK valid s (k + 2) visited e) →
      processQueue valid t queue visited nq = .cont v' nq' →
      ∀ e ∈ nq', EntryOK valid s (k + 2) v' e := by
  intro queue
  induction queue with
  | nil =>
    intro visited nq v' nq' _ hq h
    simp only [processQueue] at h
    cases h
    exact hq
  | cons e0 qrest ih =>
    obtain ⟨cur, path⟩ := e0
    intro visited nq v' nq' hQ hq h
    simp only [processQueue] at h
    obtain ⟨hpc, hph, hpl, hplen, hpnd, hsub⟩ := hQ (cur, path) (List.mem_cons_self _ _)
    cases hV : visitNexts t path (get_possible_words valid cur) visited nq with
    | found p =>
      rw [hV] at h
      exact StepRes.noConfusion h
    | cont v1 nq1 =>
      rw [hV] at h
      have hmV := visitNexts_mono t path _ _ _ _ _ hV
      refine ih _ _ _ _ ?_ ?_ h
      · intro e he
        exact EntryOK_mono hmV.1 (hQ e (List.mem_cons_of_mem _ he))
      · exact visitNexts_entries s t cur k path hpc hph hpl hplen hpnd _
          _ _ _ _ (fun y hy => ⟨gpw_fixed hy, hy⟩) hsub hq hV

/-- If the level loop returns a path, that path is a simple word-graph
path from the source to the target, one node longer than the level's
paths. -/
theorem processQueue_found_sound {valid : Word → Bool} {s t : Word} {k : Nat} :
    ∀ (queue : List Entry) (visited : List Word) (nq : List Entry) (p : List Word),
      (∀ e ∈ queue, EntryOK valid s (k + 1) visited e) →
      t ∉ visited →
      processQueue valid t queue visited nq = .found p →
      LadderFromTo valid s t p ∧ p.Nodup ∧ p.length = k + 2 := by
  intro queue
  induction queue with
  | nil =>
    intro visited nq p _ _ h
    simp only [processQueue] at h
    exact StepRes.noConfusion h
  | cons e0 qrest ih =>
    obtain ⟨cur, path⟩ := e0
    intro visited nq p hQ ht h
    simp only [processQueue] at h
    obtain ⟨hpc, hph, hpl, hplen, hpnd, hsub⟩ := hQ (cur, path) (List.mem_cons_self _ _)
    cases hV : visitNexts t path (get_possible_words valid cur) visited nq with
    | found p0 =>
      rw [hV] at h
      have hp : p0 = p := by
        cases h
        rfl
      subst hp
      exact visitNexts_found_sound s t cur k path hpc hph hpl hplen hpnd _
        _ _ _ (fun y hy => ⟨gpw_fixed hy, hy⟩) hsub ht hV
    | cont v1 nq1 =>
      rw [hV] at h
      have hmV := visitNexts_mono t path _ _ _ _ _ hV
      refine ih _ _ _ ?_ (visitNexts_target t path _ _ _ _ _ ht hV) h
      intro e he
      exact EntryOK_mono hmV.1 (hQ e (List.mem_cons_of_mem _ he))

/-- If the unvisited target is a neighbor of some queued word, the level
loop returns a path. -/
theorem processQueue_found_complete {valid : Word → Bool} {t : Word} :
    ∀ (queue : List Entry) (visited : List Word) (nq : List Entry)
      (u : Word) (pp : List Word),
      t ∉ visited → (u, pp) ∈ queue → t ∈ get_possible_words valid u →
      ∃ p, processQueue valid t queue visited nq = .found p := by
  intro queue
  induction queue with
  | nil =>
    intro visited nq u pp _ hu _
    simp at hu
  | cons e0 qrest ih =>
    obtain ⟨cur, path⟩ := e0
    intro visited nq u pp ht hu hadj
    simp only [processQueue]
    cases hV : visitNexts t path (get_possible_words valid cur) visited nq with
    | found p => exact ⟨p, rfl⟩
    | cont v1 nq1 =>
      rcases List.mem_cons.mp hu with heq | hu'
      · have h1 : u = cur := congrArg Prod.fst heq
        have h2 : pp = path := congrArg Prod.snd heq
        subst h1
        subst h2
        obtain ⟨p, hp⟩ := visitNexts_found_complete t pp
          (get_possible_words valid u) visited nq ht ⟨t, hadj, gpw_fixed hadj⟩
        exact StepRes.noConfusion (hV.symm.trans hp)
      · obtain ⟨p, hp⟩ := ih v1 nq1 u pp
          (visitNexts_target t path _ _ _ _ _ ht hV) hu' hadj
        exact ⟨p, hp⟩

/-- The BFS invariant is preserved across one level. -/
theorem bfsInv_step {valid : Word → Bool} {s t : Word} {k : Nat}
    {queue : List Entry} {visited v' : List Word} {nq' : List Entry}
    (hInv : BfsInv valid s t k queue visited)
    (h : processQueue valid t queue visited [] = .cont v' nq') :
    BfsInv valid s t (k + 1) nq' v' := by
  obtain ⟨h1, h2, h3, h4⟩ := hInv
  refine ⟨?_, ?_, ?_, ?_⟩
  · exact processQueue_entries _ _ _ _ _ h1 (by intro e he; simp at he) h
  · intro v n hn hr
    rcases Nat.lt_or_ge n (k + 1) with hlt | hge
    · exact (processQueue_mono t _ _ _ _ _ h).1 v (h2 v n (Nat.lt_succ_iff.mp hlt) hr)
    · obtain rfl : n = k + 1 := Nat.le_antisymm hn hge
      cases hr with
      | step hu hadj =>
        rename_i u
        have hub := h2 u k (le_refl _) hu
        rcases h3 u hub with ⟨pp, hpp⟩ | ⟨m, hm, hrm⟩
        · exact processQueue_cover t _ _ _ _ _ h (u, pp) hpp v hadj
        · exact (processQueue_mono t _ _ _ _ _ h).1 v
            (h2 v (m + 1) hm (hrm.step hadj))
  · intro x hx
    rcases processQueue_newv t _ _ _ _ _ h x hx with hx' | hx'
    · rcases h3 x hx' with ⟨pp, hpp⟩ | ⟨m, hm, hrm⟩
      · obtain ⟨hpc, hph, hpl, hplen, -, -⟩ := h1 (x, pp) hpp
        refine Or.inr ⟨k, le_refl _, ?_⟩
        have hrk := reachN_of_chain pp s x hpc hph hpl
        rw [hplen] at hrk
        simpa using hrk
      · exact Or.inr ⟨m, Nat.le_succ_of_le hm, hrm⟩
    · obtain ⟨e, he, hef⟩ := List.mem_map.mp hx'
      refine Or.inl ⟨e.2, ?_⟩
      rw [← hef]
      exact he
  · exact processQueue_target t _ _ _ _ _ h4 h

/-- Soundness of the depth-bounded search loop: a returned path is a
simple shortest word-graph path from the source to the target. -/
theorem bfsLoop_sound {valid : Word → Bool} {s t : Word} :
    ∀ (fuel k : Nat) (queue : List Entry) (visited : List Word) (p : List Word),
      BfsInv valid s t k queue visited →
      bfsLoop valid t fuel queue visited = some p →
      LadderFromTo valid s t p ∧ p.Nodup ∧
        ∀ q, LadderFromTo valid s t q → p.length ≤ q.length := by
  intro fuel
  induction fuel with
  | zero =>
    intro k queue visited p _ h
    exact Option.noConfusion h
  | succ fuel ih =>
    intro k queue visited p hInv h
    simp only [bfsLoop] at h
    by_cases hq : queue = []
    · rw [if_pos hq] at h
      exact Option.noConfusion h
    · rw [if_neg hq] at h
      cases hPQ : processQueue valid t queue visited [] with
      | found p0 =>
        rw [hPQ] at h
        obtain rfl : p0 = p := Option.some.inj h
        obtain ⟨hl, hnd, hlen⟩ :=
          processQueue_found_sound _ _ _ _ hInv.1 hInv.2.2.2 hPQ
        refine ⟨hl, hnd, ?_⟩
        intro q hq'
        have hr := ladder_reachN hq'
        by_contra hlt
        push_neg at hlt
        have hq1 : 1 ≤ q.length := by
          obtain ⟨hh, -, -⟩ := hq'
          cases q with
          | nil => simp at hh
          | cons _ _ => simp
        have hle : q.length - 1 ≤ k := by omega
        exact hInv.2.2.2 (hInv.2.1 t (q.length - 1) hle hr)
      | cont v1 nq1 =>
        rw [hPQ] at h
        exact ih (k + 1) nq1 v1 p (bfsInv_step hInv hPQ) h

/-- Completeness of the depth-bounded search loop: if the target is
reachable at the minimal distance `d` and enough levels remain, the loop
returns a path. -/
theorem bfsLoop_complete {valid : Word → Bool} {s t : Word} {d : Nat}
    (hr : ReachN valid s t d) (hmin : ∀ j, j < d → ¬ ReachN valid s t j) :
    ∀ (fuel k : Nat) (queue : List Entry) (visited : List Word),
      BfsInv valid s t k queue visited →
      d ≤ k + fuel →
      ∃ p, bfsLoop valid t fuel queue visited = some p := by
  intro fuel
  induction fuel with
  | zero =>
    intro k queue visited hInv hd
    exact absurd (hInv.2.1 t d (by omega) hr) hInv.2.2.2
  | succ fuel ih =>
    intro k queue visited hInv hd
    have hdk : k + 1 ≤ d := by
      by_contra hlt
      push_neg at hlt
      exact hInv.2.2.2 (hInv.2.1 t d (by omega) hr)
    obtain ⟨x, hx1, hx2⟩ := reachN_split hr (by omega : k ≤ d)
    have hxv := hInv.2.1 x k (le_refl k) hx1
    rcases hInv.2.2.1 x hxv with ⟨pp, hpp⟩ | ⟨m, hm, hrm⟩
    · have hqne : queue ≠ [] := by
        intro hq0
        rw [hq0] at hpp
        simp at hpp
      by_cases hd1 : d = k + 1
      · have hadj : Adj valid x t := by
          apply reachN_one_adj
          have hdk1 : d - k = 1 := by omega
          rwa [hdk1] at hx2
        obtain ⟨p, hp⟩ :=
          processQueue_found_complete queue visited [] x pp hInv.2.2.2 hpp hadj
        refine ⟨p, ?_⟩
        simp only [bfsLoop]
        rw [if_neg hqne, hp]
      · cases hPQ : processQueue valid t queue visited [] with
        | found p =>
          refine ⟨p, ?_⟩
          simp only [bfsLoop]
          rw [if_neg hqne, hPQ]
        | cont v1 nq1 =>
          obtain ⟨p, hp⟩ := ih (k + 1) nq1 v1 (bfsInv_step hInv hPQ) (by omega)
          refine ⟨p, ?_⟩
          simp only [bfsLoop]
          rw [if_neg hqne, hPQ]
          exact hp
    · exact absurd (reachN_trans hrm hx2) (hmin _ (by omega))

/-- A zero-step reachability chain relates a word to itself. -/
theorem reachN_zero {valid : Word → Bool} {a b : Word}
    (h : ReachN valid a b 0) : b = a := by
  cases h
  rfl

/-- The BFS invariant holds at the initial state of `_find_path`. -/
theorem bfsInv_init {valid : Word → Bool} {s t : Word} (hst : s ≠ t) :
    BfsInv valid s t 0 [(s, [s])] [s] := by
  refine ⟨?_, ?_, ?_, ?_⟩
  · intro e he
    have he' : e = (s, [s]) := by simpa using he
    subst he'
    exact ⟨List.chain'_singleton s, rfl, rfl, rfl, List.nodup_singleton s, by simp⟩
  · intro v n hn hr
    obtain rfl : n = 0 := Nat.le_zero.mp hn
    rw [reachN_zero hr]
    simp
  · intro x hx
    have hx' : x = s := by simpa using hx
    rw [hx']
    exact Or.inl ⟨[s], by simp⟩
  · intro hmem
    have ht' : t = s := by simpa using hmem
    exact hst ht'.symm

/-- Soundness of `_find_path`: a returned path is a simple word-graph
path from the normalized start to the normalized target of minimal
length. -/
theorem find_path_sound {valid : Word → Bool} {s t : Word} {p : List Word}
    (h : find_path valid s t = some p) :
    LadderFromTo valid (toUpperW s) (toUpperW t) p ∧ p.Nodup ∧
      ∀ q, LadderFromTo valid (toUpperW s) (toUpperW t) q → p.length ≤ q.length := by
  unfold find_path at h
  by_cases hEq : toUpperW s = toUpperW t
  · rw [if_pos hEq] at h
    obtain rfl : [toUpperW s] = p := Option.some.inj h
    refine ⟨⟨rfl, by simp [hEq], List.chain'_singleton _⟩, List.nodup_singleton _, ?_⟩
    intro q hq
    obtain ⟨hh, -, -⟩ := hq
    cases q with
    | nil => simp at hh
    | cons _ _ => simp
  · rw [if_neg hEq] at h
    split at h
    · exact Option.noConfusion h
    split at h
    · exact Option.noConfusion h
    exact bfsLoop_sound max_search_depth 0 _ _ p (bfsInv_init hEq) h

/-- Completeness of `_find_path`: valid endpoints connected within the
depth bound yield a returned path. -/
theorem find_path_complete {valid : Word → Bool} {s t : Word}
    (hs : valid (toUpperW s) = true) (ht : valid (toUpperW t) = true)
    (hconn : ∃ q, LadderFromTo valid (toUpperW s) (toUpperW t) q ∧
      q.length ≤ max_search_depth + 1) :
    ∃ p, find_path valid s t = some p := by
  unfold find_path
  by_cases hEq : toUpperW s = toUpperW t
  · rw [if_pos hEq]
    exact ⟨[toUpperW s], rfl⟩
  · rw [if_neg hEq]
    have h1 : ¬((!(valid (toUpperW s))) = true) := by
      rw [hs]
      decide
    have h2 : ¬((!(valid (toUpperW t))) = true) := by
      rw [ht]
      decide
    rw [if_neg h1, if_neg h2]
    obtain ⟨q, hq, hqlen⟩ := hconn
    have hex : ∃ n, ReachN valid (toUpperW s) (toUpperW t) n :=
      ⟨q.length - 1, ladder_reachN hq⟩
    haveI : DecidablePred (fun n => ReachN valid (toUpperW s) (toUpperW t) n) :=
      fun n => Classical.propDecidable _
    obtain ⟨d, hd, hmin, hdle⟩ :
        ∃ d, ReachN valid (toUpperW s) (toUpperW t) d ∧
          (∀ j, j < d → ¬ ReachN valid (toUpperW s) (toUpperW t) j) ∧
          d ≤ q.length - 1 :=
      ⟨Nat.find hex, Nat.find_spec hex, fun j hj => Nat.find_min hex hj,
        Nat.find_min' hex (ladder_reachN hq)⟩
    refine bfsLoop_complete hd hmin max_search_depth 0 _ _ (bfsInv_init hEq) ?_
    have hq16 : q.length ≤ 16 := by
      simpa [max_search_depth] using hqlen
    simp only [max_search_depth]
    omega

/-- C1: for every pair of valid words connected within the search depth
bound (15 levels), `find_path` returns a path between the normalized
endpoints whose edge count is minimal over all paths of the word graph
induced by the membership oracle; the path contains both endpoints and
has no repeated word. -/
theorem c1_find_path_shortest (valid : Word → Bool) (s t : Word)
    (hs : valid (toUpperW s) = true) (ht : valid (toUpperW t) = true)
    (hconn : ∃ q, LadderFromTo valid (toUpperW s) (toUpperW t) q ∧
      q.length ≤ max_search_depth + 1) :
    ∃ p, find_path valid s t = some p ∧
      LadderFromTo valid (toUpperW s) (toUpperW t) p ∧ p.Nodup ∧
      ∀ q, LadderFromTo valid (toUpperW s) (toUpperW t) q → p.length ≤ q.length := by
  obtain ⟨p, hp⟩ := find_path_complete hs ht hconn
  exact ⟨p, hp, find_path_sound hp⟩

/-- Witness for C1 at a concrete five-word lexicon containing the
COLD → WARM ladder. -/
theorem c1_witness :
    (validCW (toUpperW (strW "COLD")) = true ∧ validCW (toUpperW (strW "WARM")) = true ∧
      (LadderFromTo validCW (toUpperW (strW "COLD")) (toUpperW (strW "WARM"))
          [strW "COLD", strW "CORD", strW "WORD", strW "WORM", strW "WARM"] ∧
        ([strW "COLD", strW "CORD", strW "WORD", strW "WORM", strW "WARM"]).length ≤
          max_search_depth + 1)) ∧
    ∃ p, find_path validCW (strW "COLD") (strW "WARM") = some p ∧
      LadderFromTo validCW (toUpperW (strW "COLD")) (toUpperW (strW "WARM")) p ∧ p.Nodup ∧
      ∀ q, LadderFromTo validCW (toUpperW (strW "COLD")) (toUpperW (strW "WARM")) q →
        p.length ≤ q.length :=
  ⟨⟨by decide, by decide, by decide, by decide⟩,
   c1_find_path_shortest validCW (strW "COLD") (strW "WARM") (by decide) (by decide)
     ⟨[strW "COLD", strW "CORD", strW "WORD", strW "WORM", strW "WARM"],
      by decide, by decide⟩⟩

/-- The first differing position (with replacement letter) between a word
and a one-position substitution of it. -/
theorem firstDiffPair_set :
    ∀ (l : Word) (i start : Nat) (c : Char), i < l.length → c ≠ l.getD i c →
      firstDiffPair l (l.set i c) start = some (start + i, c) := by
  intro l
  induction l with
  | nil =>
    intro i start c hi _
    simp at hi
  | cons a t ih =>
    intro i start c hi hne
    cases i with
    | zero =>
      simp only [List.getD_cons_zero] at hne
      simp [firstDiffPair, List.set_cons_zero, Ne.symm hne]
    | succ j =>
      simp only [List.getD_cons_succ] at hne
      simp only [List.length_cons, Nat.succ_lt_succ_iff] at hi
      rw [List.set_cons_succ]
      simp only [firstDiffPair, if_neg (not_not_intro rfl)]
      rw [ih j (start + 1) c hi hne]
      have harith : start + 1 + j = start + (j + 1) := by omega
      rw [harith]

/-- The level-3 branch of `get_hint` for an in-progress game with a found
path of at least two nodes. -/
theorem get_hint_level3 {valid : Word → Bool} {g : Game} {path : List Word}
    (hstatus : g.status = GameStatus.IN_PROGRESS.value)
    (hfp : find_path valid (toUpperW g.current_word) (toUpperW g.target_word) = some path)
    (hlen : 2 ≤ path.length) :
    get_hint valid g 3 =
      match firstDiffPair g.current_word (toUpperW (path.getD 1 [])) 0 with
      | some (position, suggested_letter) =>
        { hint_type := HintType.LETTER,
          hint_text := "Change the \'" ++ String.mk [g.current_word.getD position ' '] ++
            "\' at position " ++ toString (position + 1) ++ " to \'" ++
            String.mk [suggested_letter] ++ "\' to make \'" ++
            String.mk (toUpperW (path.getD 1 [])) ++ "\'.",
          position := some position, suggested_letter := some suggested_letter }
      | none =>
        { hint_type := HintType.GENERAL,
          hint_text := "You\'re very close! Keep trying with small changes." } := by
  have hnl : ¬(path.length < 2) := by omega
  unfold get_hint
  rw [if_neg (not_not_intro hstatus)]
  simp only [hfp]
  rw [if_neg hnl, if_neg (by decide : ¬((3 : Nat) = 1)), if_neg (by decide : ¬((3 : Nat) = 2))]

/-- C7: for every in-progress game whose shortest path from the current
word to the target has at least two nodes, the level-3 hint's position
and suggested letter reproduce exactly the second element of that path
when substituted into the current word. -/
theorem c7_level3_hint (valid : Word → Bool) (g : Game) (path : List Word)
    (hstatus : g.status = GameStatus.IN_PROGRESS.value)
    (hcur : toUpperW g.current_word = g.current_word)
    (hfp : find_path valid (toUpperW g.current_word) (toUpperW g.target_word) = some path)
    (hlen : 2 ≤ path.length) :
    ∃ i c, (get_hint valid g 3).position = some i ∧
      (get_hint valid g 3).suggested_letter = some c ∧
      g.current_word.set i c = path.getD 1 [] := by
  obtain ⟨⟨hh, hl, hc⟩, -, -⟩ := find_path_sound hfp
  rw [toUpperW_idem, hcur] at hh
  obtain ⟨a, b, rest, rfl⟩ : ∃ a b rest, path = a :: b :: rest := by
    cases path with
    | nil => simp at hlen
    | cons a r =>
      cases r with
      | nil => simp at hlen
      | cons b r2 => exact ⟨a, b, r2, rfl⟩
  have ha : a = g.current_word := by simpa using hh
  subst ha
  have hadj : Adj valid g.current_word b := (List.chain'_cons.mp hc).1
  have hbfix : toUpperW b = b := gpw_fixed hadj
  obtain ⟨i, hi, c, hcA, hne, hv, hb⟩ := mem_get_possible_words.mp hadj
  rw [hcur] at hb hne hi
  have hget : ((g.current_word :: b :: rest) : List Word).getD 1 [] = b := rfl
  have hpair : firstDiffPair g.current_word
      (toUpperW (((g.current_word :: b :: rest) : List Word).getD 1 [])) 0 =
      some (i, c) := by
    rw [hget, hbfix, hb]
    have hfd := firstDiffPair_set g.current_word i 0 c hi hne
    simpa using hfd
  rw [get_hint_level3 hstatus hfp hlen, hpair]
  exact ⟨i, c, rfl, rfl, by rw [hget, hb]⟩

/-- Witness for C7 at a concrete lexicon and game one step from its
target. -/
theorem c7_witness :
    (gameNear.status = GameStatus.IN_PROGRESS.value ∧
      toUpperW gameNear.current_word = gameNear.current_word ∧
      find_path validCC (toUpperW gameNear.current_word) (toUpperW gameNear.target_word) =
        some [strW "COLD", strW "CORD"] ∧
      2 ≤ ([strW "COLD", strW "CORD"] : List Word).length) ∧
    ∃ i c, (get_hint validCC gameNear 3).position = some i ∧
      (get_hint validCC gameNear 3).suggested_letter = some c ∧
      gameNear.current_word.set i c = ([strW "COLD", strW "CORD"] : List Word).getD 1 [] :=
  ⟨⟨rfl, by decide, by decide, by decide⟩,
   c7_level3_hint validCC gameNear [strW "COLD", strW "CORD"] rfl (by decide)
     (by decide) (by decide)⟩
